import Mathlib

/-!
Shallow embedding of the squardle-rust word-square generator.

The embedding follows the three source files:
* `src/solution_generator.rs` — the depth-first search (`find_solutions`,
  `word_fits`, `last_word_fits`, `does_column_fit`, `skip_word`,
  `would_be_transposed_row`, `construct_potential_transposed_puzzle`).
* `src/main.rs` — the prefix-index build (`generate_starts_that_have_words`).
* `src/generator_config.rs` — CLI argument parsing (`GeneratorConfig::build`).

Rust `String`s over the fixed lowercase alphabet are modelled as `List Char`;
`HashMap<String, Vec<String>>` is modelled as an association list with
unique keys (`al_get` / `al_push` / `al_insert` / `al_remove` mirror the
`HashMap` operations used by the source).  The recursion of `find_solutions`
is made total with an explicit fuel argument; the entry point `run` is
invoked with enough fuel (the recursion depth of the source is bounded by
the word size, which is proved below as a fuel-stability theorem).
Channel sends of solutions are modelled by returning the list of emitted
solutions in emission order.
-/

set_option maxHeartbeats 1000000

namespace Squardle

/-- A word: a Rust `String` over the lowercase alphabet, as a list of chars. -/
abbrev Word := List Char

/-- The `HashMap<String, Vec<String>>` of the source, as an association list. -/
abbrev StartsMap := List (Word × List Word)

/-- `HashMap::get`: the value list stored at key `k`, if any. -/
def al_get : StartsMap → Word → Option (List Word)
  | [], _ => none
  | (k0, l0) :: rest, k => if k0 = k then some l0 else al_get rest k

/-- `HashMap::contains_key`. -/
def contains_key (m : StartsMap) (k : Word) : Bool :=
  (al_get m k).isSome

/-- `map.entry(k).or_insert_with(Vec::new).push(w)`: append `w` to the list at
`k`, creating the entry when absent. -/
def al_push : StartsMap → Word → Word → StartsMap
  | [], k, w => [(k, [w])]
  | (k0, l0) :: rest, k, w =>
    if k0 = k then (k0, l0 ++ [w]) :: rest else (k0, l0) :: al_push rest k w

/-- `HashMap::insert`: replace the value at `k`, creating the entry when
absent (used through `HashMap::extend`). -/
def al_insert : StartsMap → Word → List Word → StartsMap
  | [], k, v => [(k, v)]
  | (k0, l0) :: rest, k, v =>
    if k0 = k then (k0, v) :: rest else (k0, l0) :: al_insert rest k v

/-- `HashMap::remove`. -/
def al_remove : StartsMap → Word → StartsMap
  | [], _ => []
  | (k0, l0) :: rest, k => if k0 = k then rest else (k0, l0) :: al_remove rest k

/-- `HashMap::extend`: insert every entry of the second map into the first. -/
def al_extend : StartsMap → StartsMap → StartsMap
  | m, [] => m
  | m, (k, v) :: rest => al_extend (al_insert m k v) rest

/-- Rust `Ord::cmp` on strings: lexicographic comparison of the char lists. -/
def str_cmp : Word → Word → Ordering
  | [], [] => .eq
  | [], _ :: _ => .lt
  | _ :: _, [] => .gt
  | a :: xs, b :: ys => if a < b then .lt else if b < a then .gt else str_cmp xs ys

/-- `would_be_transposed_row` (solution_generator.rs:264):
`column.cmp(row) == Ordering::Less`. -/
def would_be_transposed_row (row column : Word) : Bool :=
  decide (str_cmp column row = Ordering.lt)

/-- `skip_word` (solution_generator.rs:288): the word starts with a recorded
non-empty dead prefix, or is already a row of the puzzle. -/
def skip_word (word : Word) (bad_starts : List Word) (puzzle : List Word) : Bool :=
  (bad_starts.any fun bad_start => !bad_start.isEmpty && bad_start.isPrefixOf word)
    || decide (word ∈ puzzle)

/-- `SolutionGenerator::does_column_fit` (solution_generator.rs:254).  The
name is inverted in the source: `true` means the column does NOT fit. -/
def does_column_fit (pm : StartsMap) (start_str column : Word) (puzzle : List Word) : Bool :=
  !contains_key pm start_str
    || !decide (column ∈ (al_get pm start_str).getD [])
    || decide (column ∈ puzzle)

/-- The loop of `word_fits`: first index whose extended column is not a key
of the map.  `i` is the index of the head pair. -/
def fits_from (pm : StartsMap) : Nat → List (Word × Char) → Option Nat
  | _, [] => none
  | i, (col, ch) :: rest =>
    if contains_key pm (col ++ [ch]) then fits_from pm (i + 1) rest else some i

/-- `SolutionGenerator::word_fits` (solution_generator.rs:212).  The source
panics when `potential_columns` and the word disagree in length; that branch
is modelled as a failed fit and is unreachable while all words share one
length. -/
def word_fits (pm : StartsMap) (word : Word) (potential_columns : List Word) :
    Bool × Nat :=
  if potential_columns.length = word.length then
    match fits_from pm 0 (potential_columns.zip word) with
    | some i => (false, i)
    | none => (true, word.length)
  else (false, 0)

/-- The loop of `last_word_fits`: first index whose full column is rejected,
either by the transpose-dedup check at index 0 or by `does_column_fit`. -/
def last_fits_from (pm : StartsMap) (puzzle : List Word) (row0 : Word) :
    Nat → List (Word × Char) → Option Nat
  | _, [] => none
  | i, (col, ch) :: rest =>
    if i == 0 && would_be_transposed_row row0 (col ++ [ch]) then some i
    else if does_column_fit pm col (col ++ [ch]) puzzle then some i
    else last_fits_from pm puzzle row0 (i + 1) rest

/-- `SolutionGenerator::last_word_fits` (solution_generator.rs:233).  The
source reads `puzzle.get(0).unwrap()`; the puzzle is never empty at the call
site, and the out-of-range access is modelled by `headD`. -/
def last_word_fits (pm : StartsMap) (puzzle : List Word) (word : Word)
    (potential_columns : List Word) : Bool × Nat :=
  match last_fits_from pm puzzle (puzzle.headD []) 0 (potential_columns.zip word) with
  | some i => (false, i)
  | none => (true, word.length - 1)

/-- The combined exit condition of the `last_word_fits` loop at absolute
column index `t` for the pair (partial column, word char): used only to state
characterizations of `last_fits_from`. -/
def lf_fail (pm : StartsMap) (puzzle : List Word) (row0 : Word) (t : Nat)
    (p : Word × Char) : Bool :=
  (t == 0 && would_be_transposed_row row0 (p.1 ++ [p.2]))
    || does_column_fit pm p.1 (p.1 ++ [p.2]) puzzle

/-- One row of `construct_potential_transposed_puzzle`'s inner loop: push each
char of the word onto the column with the same index (`get_mut` returns
`None` past the end, so extra chars are dropped; a short word leaves the
remaining columns untouched). -/
def push_column_chars : List Word → Word → List Word
  | cols, [] => cols
  | [], _ => []
  | col :: cols, c :: cs => (col ++ [c]) :: push_column_chars cols cs

/-- `construct_potential_transposed_puzzle` (solution_generator.rs:293).  The
source panics on an empty puzzle; every call site passes a non-empty one, and
the empty case is modelled by `headD`. -/
def construct_potential_transposed_puzzle (puzzle : List Word) : List Word :=
  puzzle.foldl push_column_chars (List.replicate (puzzle.headD []).length [])

/-- The fit dispatch of `find_solutions` (solution_generator.rs:173-177):
`last_word_fits` on the last row index, `word_fits` otherwise. -/
def fit_test (pm : StartsMap) (lri row_index : Nat) (puzzle cols : List Word)
    (word : Word) : Bool × Nat :=
  if row_index = lri then last_word_fits pm puzzle word cols
  else word_fits pm word cols

/-- The dictionary loop of `find_solutions` (solution_generator.rs:167-208).
The state is `(puzzle, bad_starts, emitted)`; `recurse` is the recursive call
at the next row index.  Mutation of the puzzle vector (push, recurse, pop) is
modelled by threading the vector through the state and taking `dropLast`
after the recursive call returns. -/
def fs_loop (pm : StartsMap) (lri row_index : Nat) (cols : List Word)
    (recurse : List Word → List Word × List (List Word)) :
    List Word → List Word × List Word × List (List Word) →
      List Word × List Word × List (List Word)
  | [], st => st
  | word :: rest, (puzzle, bad_starts, out) =>
    if skip_word word bad_starts puzzle then
      fs_loop pm lri row_index cols recurse rest (puzzle, bad_starts, out)
    else
      let fr := fit_test pm lri row_index puzzle cols word
      if fr.1 then
        let out1 := if fr.2 = lri then out ++ [puzzle ++ [word]] else out
        let pr := recurse (puzzle ++ [word])
        fs_loop pm lri row_index cols recurse rest (pr.1.dropLast, bad_starts, out1 ++ pr.2)
      else
        if fr.2 = lri then
          fs_loop pm lri row_index cols recurse rest (puzzle, bad_starts, out)
        else
          fs_loop pm lri row_index cols recurse rest
            (puzzle, bad_starts.set fr.2 (word.take (fr.2 + 1)), out)

/-- `SolutionGenerator::find_solutions` (solution_generator.rs:161), with a
fuel argument making the recursion total.  Returns the final puzzle vector
and the emitted solutions in emission order. -/
def find_solutions : Nat → List Word → StartsMap → Nat → List Word → Nat →
    List Word × List (List Word)
  | 0, _, _, _, puzzle, _ => (puzzle, [])
  | fuel + 1, dict, pm, lri, puzzle, row_index =>
    let cols := construct_potential_transposed_puzzle puzzle
    let r := fs_loop pm lri row_index cols
      (fun p => find_solutions fuel dict pm lri p (row_index + 1)) dict
      (puzzle, List.replicate lri [], [])
    (r.1, r.2.2)

/-- `SolutionGenerator::run` (solution_generator.rs:153): seed the puzzle with
the root word and search from row index 1.  `last_row_index` is
`word_size - 1` as set by `SolutionGenerator::new`. -/
def run (fuel : Nat) (dict : List Word) (pm : StartsMap) (word_size : Nat)
    (word : Word) : List (List Word) :=
  (find_solutions fuel dict pm (word_size - 1) [word] 1).2

/-- The dispatcher of `SolutionGeneratorThreadPool::new` feeds every
dictionary word as a root; the emitted solutions are the union over roots
(sequential `T = 1` semantics of the worker pool). -/
def emitted_solutions (fuel : Nat) (dict : List Word) (pm : StartsMap)
    (word_size : Nat) : List (List Word) :=
  dict.flatMap fun word => run fuel dict pm word_size word

/-! ### The prefix-index build of `main.rs` -/

/-- The `ALPHABET` array of main.rs. -/
def ALPHABET : List Char :=
  ['a', 'b', 'c', 'd', 'e', 'f', 'g', 'h', 'i', 'j', 'k', 'l', 'm',
   'n', 'o', 'p', 'q', 'r', 's', 't', 'u', 'v', 'w', 'x', 'y', 'z']

/-- `DictionaryErrors` (main.rs:25).  The source formats the word, the
expected size and the found size into the message string of
`InCorrectWordSize`; the three components are carried directly. -/
inductive DictionaryErrors where
  | InCorrectWordSize : Word → Nat → Nat → DictionaryErrors
  | Empty
deriving DecidableEq, Repr

/-- Inner loop of the seeding pass (main.rs:122-132): check each word's size,
then record it under its first letter when it starts with `letter`. -/
def seed_words (word_size : Nat) (letter : Char) :
    StartsMap → List Word → Except DictionaryErrors StartsMap
  | m, [] => .ok m
  | m, word :: rest =>
    if word.length ≠ word_size then
      .error (.InCorrectWordSize word word_size word.length)
    else if ([letter] : Word).isPrefixOf word then
      seed_words word_size letter (al_push m [letter] word) rest
    else
      seed_words word_size letter m rest

/-- Outer loop of the seeding pass (main.rs:121). -/
def seed_letters (word_size : Nat) (dict : List Word) :
    StartsMap → List Char → Except DictionaryErrors StartsMap
  | m, [] => .ok m
  | m, letter :: rest =>
    match seed_words word_size letter m dict with
    | .error e => .error e
    | .ok m2 => seed_letters word_size dict m2 rest

/-- Innermost loop of the growth pass (main.rs:153-161): push every word of
the previous entry that starts with the extended key. -/
def grow_words (new_start : Word) : StartsMap → List Word → StartsMap
  | ns, [] => ns
  | ns, word :: rest =>
    grow_words new_start
      (if new_start.isPrefixOf word then al_push ns new_start word else ns) rest

/-- Middle loop of the growth pass (main.rs:142-162): extend every key of
length `i` by `letter`. -/
def grow_entries (i : Nat) (letter : Char) : StartsMap → StartsMap → StartsMap
  | ns, [] => ns
  | ns, (prev_start, words) :: rest =>
    if prev_start.length = i then
      grow_entries i letter (grow_words (prev_start ++ [letter]) ns words) rest
    else
      grow_entries i letter ns rest

/-- Outer loop of the growth pass (main.rs:140): alphabet letters. -/
def grow_letters (i : Nat) (m : StartsMap) : StartsMap → List Char → StartsMap
  | ns, [] => ns
  | ns, letter :: rest => grow_letters i m (grow_entries i letter ns m) rest

/-- One iteration of `for i in 1..word_size` (main.rs:135-166): build the
layer of keys of length `i + 1` and extend the map with it. -/
def grow_layer (m : StartsMap) (i : Nat) : StartsMap :=
  al_extend m (grow_letters i m [] ALPHABET)

/-- The final removal of the length-1 seed keys (main.rs:168-170). -/
def remove_letters : StartsMap → List Char → StartsMap
  | m, [] => m
  | m, letter :: rest => remove_letters (al_remove m [letter]) rest

/-- `generate_starts_that_have_words` (main.rs:111). -/
def generate_starts_that_have_words (dictionary : List Word) :
    Except DictionaryErrors StartsMap :=
  match dictionary.head? with
  | none => .error .Empty
  | some first =>
    match seed_letters first.length dictionary [] ALPHABET with
    | .error e => .error e
    | .ok m =>
      .ok (remove_letters
        ((List.range' 1 (first.length - 1)).foldl grow_layer m) ALPHABET)

/-! ### `generator_config.rs` -/

/-- `GeneratorConfig` (generator_config.rs:2). -/
structure GeneratorConfig where
  dictionary_file_path : String
  num_threads : Nat
  solutions_dest_file_path : Option String
deriving DecidableEq, Repr

/-- Rust `str::parse::<usize>`: an optional leading `+`, then one or more
ASCII digits, with the value below `2 ^ 64` (64-bit `usize`). -/
def parse_usize (s : String) : Option Nat :=
  let cs := s.toList
  let digits := match cs with
    | '+' :: rest => rest
    | _ => cs
  if digits.isEmpty then none
  else if digits.all fun c => '0' ≤ c ∧ c ≤ '9' then
    let v := digits.foldl (fun a c => a * 10 + (c.toNat - 48)) 0
    if v < 2 ^ 64 then some v else none
  else none

/-- `GeneratorConfig::build` (generator_config.rs:10). -/
def GeneratorConfig.build (args : List String) : Except String GeneratorConfig :=
  if args.length < 2 || args.length > 4 then
    .error "Inccorect number of args, accepts 2-3 args: \ndictioary source file path\nsolution destination file path\noptional amount of threads to use"
  else
    let dictionary_file_path := args.getD 1 ""
    let solutions_dest_file_path :=
      if args.length > 2 && args.getD 2 "" ≠ "" then some (args.getD 2 "") else none
    if args.length = 4 then
      match parse_usize (args.getD 3 "") with
      | some num =>
        .ok ⟨dictionary_file_path, num, solutions_dest_file_path⟩
      | none => .error "Could not parse the number of the number of threads argument"
    else
      .ok ⟨dictionary_file_path, 1, solutions_dest_file_path⟩

/-! ### Specification-level helpers (stated from the spec, not the source) -/

/-- Column `c` of a grid of rows: the chars at index `c` of each row, in row
order (rows too short to have an index-`c` char contribute nothing). -/
def column (sq : List Word) (c : Nat) : Word :=
  sq.filterMap fun row => row[c]?

/-- The transpose of a square grid: row `c` of the transpose is column `c`. -/
def transposeSq (sq : List Word) : List Word :=
  (List.range sq.length).map fun c => column sq c

/-- The orientation of a square the search can emit: the square itself when
its column 0 is not lexicographically below its row 0, otherwise its
transpose. -/
def chooseOrient (sq : List Word) : List Word :=
  if would_be_transposed_row (sq.headD []) (column sq 0) then transposeSq sq else sq

/-- String literal to `Word`. -/
def toW (s : String) : Word := s.toList

/-- What the spec promises of every emitted square: `N` rows, all rows and
all column words in the dictionary, and row 0 strictly lexicographically
below column 0 (the transpose-dedup discipline the search enforces). -/
def emitted_ok (dict : List Word) (N : Nat) (sol : List Word) : Prop :=
  sol.length = N ∧ (∀ w ∈ sol, w ∈ dict) ∧
    (∀ c, c < N → column sol c ∈ dict) ∧
    str_cmp (sol.headD []) (column sol 0) = Ordering.lt

/-- Invariant of the prefix-index build after the layer of key length `s`:
keys are unique; every key is a nonempty alphabet string of length at most
`s` and every stored word is a dictionary word; and every dictionary word is
stored under each of its prefixes of length `1..s`. -/
def build_inv (dict : List Word) (s : Nat) (m : StartsMap) : Prop :=
  (m.map Prod.fst).Nodup ∧
  (∀ e ∈ m, (1 ≤ e.1.length ∧ e.1.length ≤ s ∧ ∀ c ∈ e.1, c ∈ ALPHABET) ∧
    ∀ x ∈ e.2, x ∈ dict) ∧
  ((∀ w ∈ dict, ∀ c ∈ w, c ∈ ALPHABET) →
    ∀ w ∈ dict, ∀ j, 1 ≤ j → j ≤ s → j ≤ w.length →
      w ∈ (al_get m (w.take j)).getD [])

/-! ### Concrete instances used by counterexamples and witnesses -/

/-- A three-word dictionary admitting exactly one word square, the diagonally
symmetric `bit/ice/ten`. -/
def dict3 : List Word := [toW "bit", toW "ice", toW "ten"]

/-- The symmetric word square over `dict3`. -/
def square3 : List Word := [toW "bit", toW "ice", toW "ten"]

/-- The prefix index built from `dict3`. -/
def pm3 : StartsMap := (generate_starts_that_have_words dict3).toOption.getD []

/-- A six-word dictionary admitting the non-symmetric square `abc/def/ghi`
(columns `adg/beh/cfi`). -/
def dict6 : List Word :=
  [toW "abc", toW "adg", toW "beh", toW "cfi", toW "def", toW "ghi"]

/-- The non-symmetric word square over `dict6`. -/
def square6 : List Word := [toW "abc", toW "def", toW "ghi"]

/-- The prefix index built from `dict6`. -/
def pm6 : StartsMap := (generate_starts_that_have_words dict6).toOption.getD []

/-! ## Lemmas about the lexicographic comparison -/

theorem str_cmp_eq_iff (a b : Word) : str_cmp a b = .eq ↔ a = b := by
  induction a generalizing b with
  | nil => cases b <;> simp [str_cmp]
  | cons x xs ih =>
    cases b with
    | nil => simp [str_cmp]
    | cons y ys =>
      simp only [str_cmp]
      split
      · rename_i h1
        constructor
        · intro h; cases h
        · rintro h
          injection h with h2 h3
          exact absurd (h2 ▸ h1) (lt_irrefl y)
      · split
        · rename_i h1 h2
          constructor
          · intro h; cases h
          · rintro h
            injection h with h3 h4
            exact absurd (h3 ▸ h2) (lt_irrefl y)
        · rename_i h1 h2
          have hxy : x = y := le_antisymm (le_of_not_lt h2) (le_of_not_lt h1)
          subst hxy
          simp [ih]

theorem str_cmp_gt_iff (a b : Word) : str_cmp a b = .gt ↔ str_cmp b a = .lt := by
  induction a generalizing b with
  | nil => cases b <;> simp [str_cmp]
  | cons x xs ih =>
    cases b with
    | nil => simp [str_cmp]
    | cons y ys =>
      simp only [str_cmp]
      rcases lt_trichotomy x y with h | h | h
      · simp [h, not_lt_of_lt h]
      · subst h
        simp [lt_irrefl, ih]
      · simp [h, not_lt_of_lt h]

theorem str_cmp_lt_asymm {a b : Word} (h : str_cmp a b = .lt) :
    str_cmp b a ≠ .lt := by
  intro h2
  rw [← str_cmp_gt_iff] at h2
  rw [h] at h2
  cases h2

theorem str_cmp_lt_of_not_lt_of_ne {a b : Word} (h1 : str_cmp a b ≠ .lt)
    (h2 : a ≠ b) : str_cmp b a = .lt := by
  rcases h3 : str_cmp a b with _ | _ | _
  · exact absurd h3 h1
  · exact absurd ((str_cmp_eq_iff a b).mp h3) h2
  · exact (str_cmp_gt_iff a b).mp h3

theorem would_be_transposed_row_iff (row col : Word) :
    would_be_transposed_row row col = true ↔ str_cmp col row = .lt := by
  simp [would_be_transposed_row, decide_eq_true_eq]

theorem str_cmp_lt_iff_lex (a b : Word) :
    str_cmp a b = .lt ↔ List.Lex (· < ·) a b := by
  induction a generalizing b with
  | nil =>
    cases b with
    | nil =>
      simp only [str_cmp]
      constructor
      · intro h; cases h
      · intro h; cases h
    | cons y ys =>
      constructor
      · intro _; exact List.Lex.nil
      · intro _; rfl
  | cons x xs ih =>
    cases b with
    | nil =>
      simp only [str_cmp]
      constructor
      · intro h; cases h
      · intro h; cases h
    | cons y ys =>
      simp only [str_cmp]
      split
      · rename_i h1
        exact ⟨fun _ => List.Lex.rel h1, fun _ => rfl⟩
      · split
        · rename_i h1 h2
          constructor
          · intro h; cases h
          · intro h
            cases h with
            | rel h3 => exact absurd h3 h1
            | cons h3 => exact absurd h2 (lt_irrefl x)
        · rename_i h1 h2
          have hxy : x = y := le_antisymm (le_of_not_lt h2) (le_of_not_lt h1)
          subst hxy
          constructor
          · intro h; exact List.Lex.cons ((ih ys).mp h)
          · intro h
            cases h with
            | rel h3 => exact absurd h3 (lt_irrefl x)
            | cons h3 => exact (ih ys).mpr h3

/-! ## Lemmas about the association-list map operations -/

theorem al_get_push (m : StartsMap) (k w k' : Word) :
    al_get (al_push m k w) k' =
      if k' = k then some ((al_get m k).getD [] ++ [w]) else al_get m k' := by
  induction m with
  | nil =>
    by_cases h : k' = k
    · subst h; simp [al_push, al_get]
    · have h2 : ¬(k = k') := fun hh => h hh.symm
      simp [al_push, al_get, h, h2]
  | cons e rest ih =>
    obtain ⟨k0, l0⟩ := e
    by_cases h0 : k0 = k
    · subst h0
      by_cases h : k' = k0
      · subst h; simp [al_push, al_get]
      · have h2 : ¬(k0 = k') := fun hh => h hh.symm
        simp [al_push, al_get, h, h2]
    · by_cases h : k0 = k'
      · subst h
        simp [al_push, al_get, h0, ih]
      · simp [al_push, al_get, h0, h, ih]

theorem al_get_insert (m : StartsMap) (k : Word) (v : List Word) (k' : Word) :
    al_get (al_insert m k v) k' = if k' = k then some v else al_get m k' := by
  induction m with
  | nil =>
    by_cases h : k' = k
    · subst h; simp [al_insert, al_get]
    · have h2 : ¬(k = k') := fun hh => h hh.symm
      simp [al_insert, al_get, h, h2]
  | cons e rest ih =>
    obtain ⟨k0, l0⟩ := e
    by_cases h0 : k0 = k
    · subst h0
      by_cases h : k' = k0
      · subst h; simp [al_insert, al_get]
      · have h2 : ¬(k0 = k') := fun hh => h hh.symm
        simp [al_insert, al_get, h, h2]
    · by_cases h : k0 = k'
      · subst h
        simp [al_insert, al_get, h0, ih]
      · simp [al_insert, al_get, h0, h, ih]

theorem al_get_mem {m : StartsMap} {k : Word} {l : List Word}
    (h : al_get m k = some l) : (k, l) ∈ m := by
  induction m with
  | nil => cases h
  | cons e rest ih =>
    obtain ⟨k0, l0⟩ := e
    by_cases h0 : k0 = k
    · subst h0
      simp [al_get] at h
      simp [h]
    · simp [al_get, h0] at h
      exact List.mem_cons_of_mem _ (ih h)

theorem al_get_isSome_iff_mem_keys (m : StartsMap) (k : Word) :
    (al_get m k).isSome = true ↔ k ∈ m.map Prod.fst := by
  induction m with
  | nil => simp [al_get]
  | cons e rest ih =>
    obtain ⟨k0, l0⟩ := e
    by_cases h0 : k0 = k
    · subst h0; simp [al_get]
    · have h2 : ¬(k = k0) := fun hh => h0 hh.symm
      simp [al_get, h0, ih, h2]

theorem al_get_eq_none_iff (m : StartsMap) (k : Word) :
    al_get m k = none ↔ k ∉ m.map Prod.fst := by
  rw [← al_get_isSome_iff_mem_keys]
  cases al_get m k <;> simp

theorem mem_al_push {m : StartsMap} {k w : Word} {e : Word × List Word}
    (h : e ∈ al_push m k w) :
    e ∈ m ∨ e = (k, (al_get m k).getD [] ++ [w]) := by
  induction m with
  | nil =>
    simp [al_push] at h
    simp [al_get, h]
  | cons e0 rest ih =>
    obtain ⟨k0, l0⟩ := e0
    by_cases h0 : k0 = k
    · subst h0
      simp [al_push] at h
      rcases h with h | h
      · right; simp [al_get, h]
      · left; simp [h]
    · simp [al_push, h0] at h
      rcases h with h | h
      · left; simp [h]
      · rcases ih h with h2 | h2
        · left; simp [h2]
        · right; simp [al_get, h0, h2]

theorem mem_al_insert {m : StartsMap} {k : Word} {v : List Word}
    {e : Word × List Word} (h : e ∈ al_insert m k v) : e ∈ m ∨ e = (k, v) := by
  induction m with
  | nil => simp [al_insert] at h; simp [h]
  | cons e0 rest ih =>
    obtain ⟨k0, l0⟩ := e0
    by_cases h0 : k0 = k
    · subst h0
      simp [al_insert] at h
      rcases h with h | h
      · right; simp [h]
      · left; simp [h]
    · simp [al_insert, h0] at h
      rcases h with h | h
      · left; simp [h]
      · rcases ih h with h2 | h2
        · left; simp [h2]
        · right; exact h2

theorem mem_al_extend {m ns : StartsMap} {e : Word × List Word}
    (h : e ∈ al_extend m ns) : e ∈ m ∨ e ∈ ns := by
  induction ns generalizing m with
  | nil => simp [al_extend] at h; left; exact h
  | cons e0 rest ih =>
    obtain ⟨k0, v0⟩ := e0
    simp only [al_extend] at h
    rcases ih h with h2 | h2
    · rcases mem_al_insert h2 with h3 | h3
      · left; exact h3
      · right; simp [h3]
    · right; simp [h2]

theorem al_remove_sublist (m : StartsMap) (k : Word) :
    List.Sublist (al_remove m k) m := by
  induction m with
  | nil => simp [al_remove]
  | cons e rest ih =>
    obtain ⟨k0, l0⟩ := e
    by_cases h0 : k0 = k
    · subst h0
      simp [al_remove]
    · simp [al_remove, h0]
      exact ih

theorem mem_al_remove {m : StartsMap} {k : Word} {e : Word × List Word}
    (h : e ∈ al_remove m k) : e ∈ m :=
  (al_remove_sublist m k).mem h

theorem al_get_remove_ne {m : StartsMap} {k k' : Word} (h : k' ≠ k) :
    al_get (al_remove m k) k' = al_get m k' := by
  induction m with
  | nil => simp [al_remove]
  | cons e rest ih =>
    obtain ⟨k0, l0⟩ := e
    by_cases h0 : k0 = k
    · subst h0
      have h2 : ¬(k0 = k') := fun hh => h hh.symm
      simp [al_remove, al_get, h2]
    · simp [al_remove, al_get, h0, ih]

theorem al_get_remove_none {m : StartsMap} {k k' : Word}
    (h : al_get m k' = none) : al_get (al_remove m k) k' = none := by
  rw [al_get_eq_none_iff] at h ⊢
  intro hmem
  exact h (((al_remove_sublist m k).map Prod.fst).mem hmem)

theorem al_get_remove_self {m : StartsMap} (hnd : (m.map Prod.fst).Nodup)
    (k : Word) : al_get (al_remove m k) k = none := by
  induction m with
  | nil => simp [al_remove, al_get]
  | cons e rest ih =>
    obtain ⟨k0, l0⟩ := e
    simp only [List.map_cons, List.nodup_cons] at hnd
    by_cases h0 : k0 = k
    · subst h0
      simp only [al_remove, if_pos rfl]
      rw [al_get_eq_none_iff]
      exact hnd.1
    · simp [al_remove, al_get, h0]
      exact ih hnd.2

theorem keys_al_push (m : StartsMap) (k w : Word) :
    (al_push m k w).map Prod.fst =
      if (al_get m k).isSome then m.map Prod.fst else m.map Prod.fst ++ [k] := by
  induction m with
  | nil => simp [al_push, al_get]
  | cons e rest ih =>
    obtain ⟨k0, l0⟩ := e
    by_cases h0 : k0 = k
    · subst h0; simp [al_push, al_get]
    · simp [al_push, al_get, h0, ih]
      split <;> simp

theorem keys_al_insert (m : StartsMap) (k : Word) (v : List Word) :
    (al_insert m k v).map Prod.fst =
      if (al_get m k).isSome then m.map Prod.fst else m.map Prod.fst ++ [k] := by
  induction m with
  | nil => simp [al_insert, al_get]
  | cons e rest ih =>
    obtain ⟨k0, l0⟩ := e
    by_cases h0 : k0 = k
    · subst h0; simp [al_insert, al_get]
    · simp [al_insert, al_get, h0, ih]
      split <;> simp

theorem nodup_keys_al_push {m : StartsMap} (hnd : (m.map Prod.fst).Nodup)
    (k w : Word) : ((al_push m k w).map Prod.fst).Nodup := by
  rw [keys_al_push]
  split
  · exact hnd
  · rename_i h
    refine hnd.append (List.nodup_singleton _) ?_
    intro a ha hb
    rw [List.mem_singleton] at hb
    subst hb
    rw [← al_get_isSome_iff_mem_keys] at ha
    exact h ha

theorem nodup_keys_al_insert {m : StartsMap} (hnd : (m.map Prod.fst).Nodup)
    (k : Word) (v : List Word) : ((al_insert m k v).map Prod.fst).Nodup := by
  rw [keys_al_insert]
  split
  · exact hnd
  · rename_i h
    refine hnd.append (List.nodup_singleton _) ?_
    intro a ha hb
    rw [List.mem_singleton] at hb
    subst hb
    rw [← al_get_isSome_iff_mem_keys] at ha
    exact h ha

theorem nodup_keys_al_remove {m : StartsMap} (hnd : (m.map Prod.fst).Nodup)
    (k : Word) : ((al_remove m k).map Prod.fst).Nodup :=
  ((al_remove_sublist m k).map Prod.fst).nodup hnd

theorem nodup_keys_al_extend {m : StartsMap} (hnd : (m.map Prod.fst).Nodup)
    (ns : StartsMap) : ((al_extend m ns).map Prod.fst).Nodup := by
  induction ns generalizing m with
  | nil => exact hnd
  | cons e rest ih =>
    obtain ⟨k0, v0⟩ := e
    exact ih (nodup_keys_al_insert hnd k0 v0)

theorem al_get_extend_none {m ns : StartsMap} {k : Word}
    (h : al_get ns k = none) : al_get (al_extend m ns) k = al_get m k := by
  induction ns generalizing m with
  | nil => simp [al_extend]
  | cons e rest ih =>
    obtain ⟨k0, v0⟩ := e
    by_cases h0 : k0 = k
    · subst h0; simp [al_get] at h
    · simp only [al_get, if_neg (fun hh : k0 = k => h0 hh)] at h
      simp only [al_extend]
      rw [ih h, al_get_insert, if_neg (fun hh : k = k0 => h0 hh.symm)]

theorem al_get_extend_some {m ns : StartsMap} {k : Word} {v : List Word}
    (hnd : (ns.map Prod.fst).Nodup) (h : al_get ns k = some v) :
    al_get (al_extend m ns) k = some v := by
  induction ns generalizing m with
  | nil => cases h
  | cons e rest ih =>
    obtain ⟨k0, v0⟩ := e
    simp only [List.map_cons, List.nodup_cons] at hnd
    by_cases h0 : k0 = k
    · subst h0
      have hv : v0 = v := by simpa [al_get] using h
      subst hv
      simp only [al_extend]
      have hrest : al_get rest k0 = none := (al_get_eq_none_iff _ _).mpr hnd.1
      rw [al_get_extend_none hrest, al_get_insert, if_pos rfl]
    · simp only [al_get, if_neg h0] at h
      simp only [al_extend]
      exact ih hnd.2 h

/-! ## Lemmas about columns and the transpose helper -/

theorem column_cons_of_lt {w : Word} {c : Nat} (h : c < w.length)
    (rest : List Word) : column (w :: rest) c = w[c] :: column rest c := by
  simp [column, List.filterMap_cons, List.getElem?_eq_getElem h]

theorem column_append (a b : List Word) (c : Nat) :
    column (a ++ b) c = column a c ++ column b c := by
  simp [column, List.filterMap_append]

theorem column_length {sq : List Word} {n : Nat} (h : ∀ w ∈ sq, n ≤ w.length)
    {c : Nat} (hc : c < n) : (column sq c).length = sq.length := by
  induction sq with
  | nil => simp [column]
  | cons w rest ih =>
    have hw : c < w.length := lt_of_lt_of_le hc (h w (List.mem_cons_self w rest))
    rw [column_cons_of_lt hw]
    simp only [List.length_cons]
    rw [ih fun x hx => h x (List.mem_cons_of_mem w hx)]

theorem column_getElem? {sq : List Word} {n : Nat} (h : ∀ w ∈ sq, n ≤ w.length)
    {c : Nat} (hc : c < n) (r : Nat) :
    (column sq c)[r]? = (sq[r]?).bind fun w => w[c]? := by
  induction sq generalizing r with
  | nil => simp [column]
  | cons w rest ih =>
    have hw : c < w.length := lt_of_lt_of_le hc (h w (List.mem_cons_self w rest))
    rw [column_cons_of_lt hw]
    cases r with
    | zero => simp [List.getElem?_eq_getElem hw]
    | succ r =>
      simp only [List.getElem?_cons_succ]
      exact ih (fun x hx => h x (List.mem_cons_of_mem w hx)) r

theorem column_take {sq : List Word} {n : Nat} (h : ∀ w ∈ sq, n ≤ w.length)
    {c : Nat} (hc : c < n) (r : Nat) :
    column (sq.take r) c = (column sq c).take r := by
  induction sq generalizing r with
  | nil => simp [column]
  | cons w rest ih =>
    have hw : c < w.length := lt_of_lt_of_le hc (h w (List.mem_cons_self w rest))
    cases r with
    | zero => simp [column]
    | succ r =>
      simp only [List.take_succ_cons]
      rw [column_cons_of_lt hw, column_cons_of_lt hw, List.take_succ_cons]
      rw [ih fun x hx => h x (List.mem_cons_of_mem w hx)]

/-! ## Lemmas about `construct_potential_transposed_puzzle` -/

theorem push_column_chars_length :
    ∀ (cols : List Word) (w : Word),
      (push_column_chars cols w).length = cols.length := by
  intro cols
  induction cols with
  | nil => intro w; cases w <;> simp [push_column_chars]
  | cons col cols ih =>
    intro w
    cases w with
    | nil => simp [push_column_chars]
    | cons ch cs => simp [push_column_chars, ih]

theorem push_column_chars_getElem? :
    ∀ (cols : List Word) (w : Word) (c : Nat), (hc : c < w.length) →
      (push_column_chars cols w)[c]? = (cols[c]?).map fun col => col ++ [w[c]] := by
  intro cols
  induction cols with
  | nil =>
    intro w c hc
    cases w with
    | nil => simp at hc
    | cons ch cs => simp [push_column_chars]
  | cons col cols ih =>
    intro w c hc
    cases w with
    | nil => simp at hc
    | cons ch cs =>
      cases c with
      | zero => simp [push_column_chars]
      | succ c =>
        simp only [push_column_chars, List.getElem?_cons_succ, List.getElem_cons_succ]
        exact ih cs c (by simpa using hc)

theorem foldl_push_length :
    ∀ (puzzle : List Word) (acc : List Word),
      (puzzle.foldl push_column_chars acc).length = acc.length := by
  intro puzzle
  induction puzzle with
  | nil => intro acc; rfl
  | cons w rest ih =>
    intro acc
    simp only [List.foldl_cons]
    rw [ih, push_column_chars_length]

theorem foldl_push_getElem? :
    ∀ (puzzle : List Word) (acc : List Word) (c : Nat),
      (∀ w ∈ puzzle, w.length = acc.length) → c < acc.length →
      (puzzle.foldl push_column_chars acc)[c]? =
        (acc[c]?).map fun col => col ++ column puzzle c := by
  intro puzzle
  induction puzzle with
  | nil =>
    intro acc c _ _
    simp only [List.foldl_nil, column, List.filterMap_nil]
    cases acc[c]? <;> simp
  | cons w rest ih =>
    intro acc c h hc
    have hw : w.length = acc.length := h w (List.mem_cons_self w rest)
    have hcw : c < w.length := hw ▸ hc
    simp only [List.foldl_cons]
    rw [ih (push_column_chars acc w) c
      (by
        intro x hx
        rw [push_column_chars_length]
        exact h x (List.mem_cons_of_mem w hx))
      (by rw [push_column_chars_length]; exact hc)]
    rw [push_column_chars_getElem? acc w c hcw]
    rw [column_cons_of_lt hcw]
    cases acc[c]? <;> simp

theorem construct_length (puzzle : List Word) :
    (construct_potential_transposed_puzzle puzzle).length =
      (puzzle.headD []).length := by
  simp [construct_potential_transposed_puzzle, foldl_push_length]

theorem construct_getElem? {puzzle : List Word} {n : Nat} (hne : puzzle ≠ [])
    (h : ∀ w ∈ puzzle, w.length = n) {c : Nat} (hc : c < n) :
    (construct_potential_transposed_puzzle puzzle)[c]? =
      some (column puzzle c) := by
  have hhead : (puzzle.headD []).length = n := by
    cases puzzle with
    | nil => exact absurd rfl hne
    | cons w rest => exact h w (List.mem_cons_self w rest)
  simp only [construct_potential_transposed_puzzle, hhead]
  rw [foldl_push_getElem? puzzle (List.replicate n []) c
    (by intro x hx; rw [List.length_replicate]; exact h x hx)
    (by rw [List.length_replicate]; exact hc)]
  simp [List.getElem?_replicate, hc]

/-! ## Characterizations of the fit-test loops -/

theorem fits_from_eq_none_iff (pm : StartsMap) (i : Nat)
    (ps : List (Word × Char)) :
    fits_from pm i ps = none ↔
      ∀ p ∈ ps, contains_key pm (p.1 ++ [p.2]) = true := by
  induction ps generalizing i with
  | nil => simp [fits_from]
  | cons p rest ih =>
    obtain ⟨col, ch⟩ := p
    simp only [fits_from]
    cases hc : contains_key pm (col ++ [ch]) with
    | false =>
      simp only [hc, Bool.false_eq_true, if_false]
      constructor
      · intro h; cases h
      · intro h
        have := h (col, ch) (List.mem_cons_self _ _)
        rw [hc] at this
        cases this
    | true =>
      simp only [hc, if_true]
      rw [ih (i + 1)]
      constructor
      · intro h p hp
        rcases List.mem_cons.mp hp with h2 | h2
        · subst h2; exact hc
        · exact h p h2
      · intro h p hp
        exact h p (List.mem_cons_of_mem _ hp)

theorem fits_from_eq_some_iff (pm : StartsMap) (i v : Nat)
    (ps : List (Word × Char)) :
    fits_from pm i ps = some v ↔
      ∃ j p, ps[j]? = some p ∧ v = i + j ∧
        contains_key pm (p.1 ++ [p.2]) = false ∧
        ∀ q ∈ ps.take j, contains_key pm (q.1 ++ [q.2]) = true := by
  induction ps generalizing i with
  | nil => simp [fits_from]
  | cons p rest ih =>
    obtain ⟨col, ch⟩ := p
    simp only [fits_from]
    cases hc : contains_key pm (col ++ [ch]) with
    | false =>
      simp only [hc, Bool.false_eq_true, if_false]
      constructor
      · intro h
        injection h with h
        exact ⟨0, (col, ch), by simp, by omega, hc, by simp⟩
      · rintro ⟨j, q, hq, hv, hf, hall⟩
        cases j with
        | zero =>
          simp only [List.getElem?_cons_zero, Option.some.injEq] at hq
          subst hv
          rfl
        | succ j =>
          have := hall (col, ch) (by simp [List.take_succ_cons])
          rw [hc] at this
          cases this
    | true =>
      simp only [hc, if_true]
      rw [ih (i + 1)]
      constructor
      · rintro ⟨j, q, hq, hv, hf, hall⟩
        refine ⟨j + 1, q, by simpa using hq, by omega, hf, ?_⟩
        intro q' hq'
        rw [List.take_succ_cons] at hq'
        rcases List.mem_cons.mp hq' with h2 | h2
        · subst h2; exact hc
        · exact hall q' h2
      · rintro ⟨j, q, hq, hv, hf, hall⟩
        cases j with
        | zero =>
          simp only [List.getElem?_cons_zero, Option.some.injEq] at hq
          rw [← hq] at hf
          rw [hc] at hf
          cases hf
        | succ j =>
          refine ⟨j, q, by simpa using hq, by omega, hf, ?_⟩
          intro q' hq'
          exact hall q' (by rw [List.take_succ_cons]; exact List.mem_cons_of_mem _ hq')

theorem last_fits_from_cons (pm : StartsMap) (P : List Word) (r0 : Word)
    (i : Nat) (col : Word) (ch : Char) (rest : List (Word × Char)) :
    last_fits_from pm P r0 i ((col, ch) :: rest) =
      if lf_fail pm P r0 i (col, ch) = true then some i
      else last_fits_from pm P r0 (i + 1) rest := by
  simp only [last_fits_from, lf_fail]
  rcases Bool.eq_false_or_eq_true (i == 0 && would_be_transposed_row r0 (col ++ [ch]))
      with h1 | h1 <;>
    rcases Bool.eq_false_or_eq_true (does_column_fit pm col (col ++ [ch]) P)
        with h2 | h2 <;>
      simp [h1, h2]

theorem last_fits_from_eq_none_iff (pm : StartsMap) (P : List Word) (r0 : Word)
    (i : Nat) (ps : List (Word × Char)) :
    last_fits_from pm P r0 i ps = none ↔
      ∀ j p, ps[j]? = some p → lf_fail pm P r0 (i + j) p = false := by
  induction ps generalizing i with
  | nil => simp [last_fits_from]
  | cons p rest ih =>
    obtain ⟨col, ch⟩ := p
    rw [last_fits_from_cons]
    cases hf : lf_fail pm P r0 i (col, ch) with
    | false =>
      simp only [Bool.false_eq_true, if_false]
      rw [ih (i + 1)]
      constructor
      · intro h j p hj
        cases j with
        | zero =>
          simp only [List.getElem?_cons_zero, Option.some.injEq] at hj
          rw [← hj, Nat.add_zero]
          exact hf
        | succ j =>
          have h2 : i + (j + 1) = (i + 1) + j := by omega
          rw [h2]
          exact h j p (by simpa using hj)
      · intro h j p hj
        have h2 : (i + 1) + j = i + (j + 1) := by omega
        rw [h2]
        exact h (j + 1) p (by simpa using hj)
    | true =>
      simp only [if_true]
      constructor
      · intro h; cases h
      · intro h
        have := h 0 (col, ch) (by simp)
        rw [Nat.add_zero, hf] at this
        cases this

theorem last_fits_from_eq_some_iff (pm : StartsMap) (P : List Word) (r0 : Word)
    (i v : Nat) (ps : List (Word × Char)) :
    last_fits_from pm P r0 i ps = some v ↔
      ∃ j p, ps[j]? = some p ∧ v = i + j ∧
        lf_fail pm P r0 (i + j) p = true ∧
        ∀ j' p', j' < j → ps[j']? = some p' →
          lf_fail pm P r0 (i + j') p' = false := by
  induction ps generalizing i with
  | nil => simp [last_fits_from]
  | cons p rest ih =>
    obtain ⟨col, ch⟩ := p
    rw [last_fits_from_cons]
    cases hf : lf_fail pm P r0 i (col, ch) with
    | false =>
      simp only [Bool.false_eq_true, if_false]
      rw [ih (i + 1)]
      constructor
      · rintro ⟨j, q, hq, hv, hj, hall⟩
        refine ⟨j + 1, q, by simpa using hq, by omega, ?_, ?_⟩
        · have h2 : i + (j + 1) = (i + 1) + j := by omega
          rw [h2]; exact hj
        · intro j' p' hlt hj'
          cases j' with
          | zero =>
            simp only [List.getElem?_cons_zero, Option.some.injEq] at hj'
            rw [← hj', Nat.add_zero]
            exact hf
          | succ j' =>
            have h2 : i + (j' + 1) = (i + 1) + j' := by omega
            rw [h2]
            exact hall j' p' (by omega) (by simpa using hj')
      · rintro ⟨j, q, hq, hv, hj, hall⟩
        cases j with
        | zero =>
          simp only [List.getElem?_cons_zero, Option.some.injEq] at hq
          rw [← hq, Nat.add_zero, hf] at hj
          cases hj
        | succ j =>
          refine ⟨j, q, by simpa using hq, by omega, ?_, ?_⟩
          · have h2 : (i + 1) + j = i + (j + 1) := by omega
            rw [h2]; exact hj
          · intro j' p' hlt hj'
            have h2 : (i + 1) + j' = i + (j' + 1) := by omega
            rw [h2]
            exact hall (j' + 1) p' (by omega) (by simpa using hj')
    | true =>
      simp only [if_true]
      constructor
      · intro h
        injection h with h
        exact ⟨0, (col, ch), by simp, by omega, by rw [Nat.add_zero]; exact hf,
          by intro j' p' hlt; omega⟩
      · rintro ⟨j, q, hq, hv, hj, hall⟩
        cases j with
        | zero =>
          simp only [List.getElem?_cons_zero, Option.some.injEq] at hq
          subst hv
          rfl
        | succ j =>
          have := hall 0 (col, ch) (by omega) (by simp)
          rw [Nat.add_zero, hf] at this
          cases this

/-! ## Structure lemmas for the search loop -/

theorem fs_loop_nil (pm : StartsMap) (lri ri : Nat) (cols : List Word)
    (recurse : List Word → List Word × List (List Word))
    (st : List Word × List Word × List (List Word)) :
    fs_loop pm lri ri cols recurse [] st = st := rfl

theorem fs_loop_cons (pm : StartsMap) (lri ri : Nat) (cols : List Word)
    (recurse : List Word → List Word × List (List Word)) (word : Word)
    (rest : List Word) (puzzle bad_starts : List Word)
    (out : List (List Word)) :
    fs_loop pm lri ri cols recurse (word :: rest) (puzzle, bad_starts, out) =
      if skip_word word bad_starts puzzle then
        fs_loop pm lri ri cols recurse rest (puzzle, bad_starts, out)
      else
        if (fit_test pm lri ri puzzle cols word).1 then
          fs_loop pm lri ri cols recurse rest
            ((recurse (puzzle ++ [word])).1.dropLast, bad_starts,
              (if (fit_test pm lri ri puzzle cols word).2 = lri then
                out ++ [puzzle ++ [word]] else out)
                ++ (recurse (puzzle ++ [word])).2)
        else
          if (fit_test pm lri ri puzzle cols word).2 = lri then
            fs_loop pm lri ri cols recurse rest (puzzle, bad_starts, out)
          else
            fs_loop pm lri ri cols recurse rest
              (puzzle,
                bad_starts.set (fit_test pm lri ri puzzle cols word).2
                  (word.take ((fit_test pm lri ri puzzle cols word).2 + 1)),
                out) := rfl

theorem fs_loop_fst {pm : StartsMap} {lri ri : Nat} {cols : List Word}
    {recurse : List Word → List Word × List (List Word)}
    (hrec : ∀ p, (recurse p).1 = p) :
    ∀ (l : List Word) (st : List Word × List Word × List (List Word)),
      (fs_loop pm lri ri cols recurse l st).1 = st.1 := by
  intro l
  induction l with
  | nil => intro st; rfl
  | cons word rest ih =>
    rintro ⟨puzzle, bad_starts, out⟩
    rw [fs_loop_cons]
    by_cases h1 : skip_word word bad_starts puzzle = true
    · rw [if_pos h1]; exact ih _
    · rw [if_neg h1]
      by_cases h2 : (fit_test pm lri ri puzzle cols word).1 = true
      · rw [if_pos h2, ih]
        show (recurse (puzzle ++ [word])).1.dropLast = puzzle
        rw [hrec, List.dropLast_concat]
      · rw [if_neg h2]
        by_cases h3 : (fit_test pm lri ri puzzle cols word).2 = lri
        · rw [if_pos h3]; exact ih _
        · rw [if_neg h3]; exact ih _

theorem fs_loop_out_mono {pm : StartsMap} {lri ri : Nat} {cols : List Word}
    {recurse : List Word → List Word × List (List Word)} :
    ∀ (l : List Word) (st : List Word × List Word × List (List Word))
      (x : List Word), x ∈ st.2.2 → x ∈ (fs_loop pm lri ri cols recurse l st).2.2 := by
  intro l
  induction l with
  | nil => intro st x hx; exact hx
  | cons word rest ih =>
    rintro ⟨puzzle, bad_starts, out⟩ x hx
    rw [fs_loop_cons]
    by_cases h1 : skip_word word bad_starts puzzle = true
    · rw [if_pos h1]; exact ih _ x hx
    · rw [if_neg h1]
      by_cases h2 : (fit_test pm lri ri puzzle cols word).1 = true
      · rw [if_pos h2]
        apply ih
        apply List.mem_append.mpr
        left
        by_cases hc : (fit_test pm lri ri puzzle cols word).2 = lri
        · rw [if_pos hc]; exact List.mem_append.mpr (Or.inl hx)
        · rw [if_neg hc]; exact hx
      · rw [if_neg h2]
        by_cases h3 : (fit_test pm lri ri puzzle cols word).2 = lri
        · rw [if_pos h3]; exact ih _ x hx
        · rw [if_neg h3]; exact ih _ x hx

theorem find_solutions_zero (dict : List Word) (pm : StartsMap) (lri : Nat)
    (puzzle : List Word) (ri : Nat) :
    find_solutions 0 dict pm lri puzzle ri = (puzzle, []) := rfl

theorem find_solutions_succ (fuel : Nat) (dict : List Word) (pm : StartsMap)
    (lri : Nat) (puzzle : List Word) (ri : Nat) :
    find_solutions (fuel + 1) dict pm lri puzzle ri =
      ((fs_loop pm lri ri (construct_potential_transposed_puzzle puzzle)
          (fun p => find_solutions fuel dict pm lri p (ri + 1)) dict
          (puzzle, List.replicate lri [], [])).1,
        (fs_loop pm lri ri (construct_potential_transposed_puzzle puzzle)
          (fun p => find_solutions fuel dict pm lri p (ri + 1)) dict
          (puzzle, List.replicate lri [], [])).2.2) := rfl

theorem find_solutions_fst :
    ∀ (fuel : Nat) (dict : List Word) (pm : StartsMap) (lri : Nat)
      (puzzle : List Word) (ri : Nat),
      (find_solutions fuel dict pm lri puzzle ri).1 = puzzle := by
  intro fuel
  induction fuel with
  | zero => intro dict pm lri puzzle ri; rfl
  | succ fuel ih =>
    intro dict pm lri puzzle ri
    rw [find_solutions_succ]
    exact fs_loop_fst (fun p => ih dict pm lri p (ri + 1)) dict _

/-! ## Small helpers for the fit tests -/

theorem headD_mem {l : List Word} (h : l ≠ []) (d : Word) : l.headD d ∈ l := by
  cases l with
  | nil => exact absurd rfl h
  | cons w rest => exact List.mem_cons_self w rest

theorem headD_append {l l2 : List Word} (h : l ≠ []) (d : Word) :
    (l ++ l2).headD d = l.headD d := by
  cases l with
  | nil => exact absurd rfl h
  | cons w rest => rfl

theorem contains_key_some {pm : StartsMap} {k : Word}
    (h : contains_key pm k = true) : ∃ l, al_get pm k = some l := by
  simp only [contains_key] at h
  exact Option.isSome_iff_exists.mp h

theorem does_column_fit_eq_false_iff (pm : StartsMap) (s c : Word)
    (P : List Word) :
    does_column_fit pm s c P = false ↔
      contains_key pm s = true ∧ c ∈ (al_get pm s).getD [] ∧ c ∉ P := by
  simp only [does_column_fit, Bool.or_eq_false_iff, Bool.not_eq_false',
    decide_eq_false_iff_not, decide_eq_true_eq, Bool.not_eq_true',
    decide_eq_false_iff_not]
  tauto

theorem word_fits_true {pm : StartsMap} {word : Word} {cols : List Word}
    (h : (word_fits pm word cols).1 = true) :
    cols.length = word.length ∧ fits_from pm 0 (cols.zip word) = none ∧
      (word_fits pm word cols).2 = word.length := by
  by_cases hl : cols.length = word.length
  · refine ⟨hl, ?_⟩
    simp only [word_fits, if_pos hl] at h ⊢
    cases hfit : fits_from pm 0 (cols.zip word) with
    | some i => rw [hfit] at h; cases h
    | none => exact ⟨rfl, rfl⟩
  · simp only [word_fits, if_neg hl] at h
    cases h

theorem last_word_fits_true {pm : StartsMap} {P : List Word} {word : Word}
    {cols : List Word} (h : (last_word_fits pm P word cols).1 = true) :
    last_fits_from pm P (P.headD []) 0 (cols.zip word) = none ∧
      (last_word_fits pm P word cols).2 = word.length - 1 := by
  simp only [last_word_fits] at h ⊢
  cases hfit : last_fits_from pm P (P.headD []) 0 (cols.zip word) with
  | some i => rw [hfit] at h; cases h
  | none => exact ⟨rfl, rfl⟩

theorem word_fits_of_none {pm : StartsMap} {word : Word} {cols : List Word}
    (hl : cols.length = word.length)
    (hf : fits_from pm 0 (cols.zip word) = none) :
    word_fits pm word cols = (true, word.length) := by
  simp [word_fits, hl, hf]

theorem last_word_fits_of_none {pm : StartsMap} {P : List Word} {word : Word}
    {cols : List Word}
    (hf : last_fits_from pm P (P.headD []) 0 (cols.zip word) = none) :
    last_word_fits pm P word cols = (true, word.length - 1) := by
  simp only [last_word_fits]
  rw [hf]

theorem word_fits_eq_false {pm : StartsMap} {word : Word} {cols : List Word}
    {c : Nat} (h : word_fits pm word cols = (false, c)) :
    (cols.length = word.length ∧ fits_from pm 0 (cols.zip word) = some c) ∨
      (¬cols.length = word.length ∧ c = 0) := by
  by_cases hl : cols.length = word.length
  · left
    refine ⟨hl, ?_⟩
    simp only [word_fits, if_pos hl] at h
    cases hfit : fits_from pm 0 (cols.zip word) with
    | some i =>
      rw [hfit] at h
      injection h with h1 h2
      rw [h2]
    | none => rw [hfit] at h; cases h
  · right
    simp only [word_fits, if_neg hl, Prod.mk.injEq] at h
    exact ⟨hl, h.2.symm⟩

theorem last_word_fits_eq_false {pm : StartsMap} {P : List Word} {word : Word}
    {cols : List Word} {c : Nat} (h : last_word_fits pm P word cols = (false, c)) :
    last_fits_from pm P (P.headD []) 0 (cols.zip word) = some c := by
  simp only [last_word_fits] at h
  cases hfit : last_fits_from pm P (P.headD []) 0 (cols.zip word) with
  | some i =>
    rw [hfit] at h
    injection h with h1 h2
    rw [h2]
  | none => rw [hfit] at h; cases h

/-! ## Soundness of emitted squares -/

theorem emission_ok (dict : List Word) (pm : StartsMap) (N : Nat)
    (hN : 1 ≤ N)
    (hlen : ∀ w ∈ dict, w.length = N)
    (hsub : ∀ p l, al_get pm p = some l → ∀ w ∈ l, w ∈ dict)
    (puzzle : List Word) (hri : puzzle.length = N - 1)
    (hr1 : 1 ≤ puzzle.length)
    (hpz : ∀ w ∈ puzzle, w ∈ dict)
    (word : Word) (hw : word ∈ dict)
    (h : (last_word_fits pm puzzle word
        (construct_potential_transposed_puzzle puzzle)).1 = true) :
    emitted_ok dict N (puzzle ++ [word]) := by
  set cols := construct_potential_transposed_puzzle puzzle with hcols
  have hpne : puzzle ≠ [] := by
    intro he
    rw [he] at hr1
    simp at hr1
  have hplen : ∀ w ∈ puzzle, w.length = N := fun w hw2 => hlen w (hpz w hw2)
  have hwlen : word.length = N := hlen word hw
  obtain ⟨hnone, _⟩ := last_word_fits_true h
  have hfail : ∀ c ch, c < N → word[c]? = some ch →
      lf_fail pm puzzle (puzzle.headD []) c (column puzzle c, ch) = false := by
    intro c ch hc hch
    have hpair : (cols.zip word)[c]? = some (column puzzle c, ch) :=
      List.getElem?_zip_eq_some.mpr
        ⟨by rw [hcols]; exact construct_getElem? hpne hplen hc, hch⟩
    have h2 := (last_fits_from_eq_none_iff pm puzzle (puzzle.headD []) 0
      (cols.zip word)).mp hnone c _ hpair
    rwa [Nat.zero_add] at h2
  have hcol : ∀ c ch, c < N → word[c]? = some ch →
      column (puzzle ++ [word]) c = column puzzle c ++ [ch] := by
    intro c ch hc hch
    rw [column_append]
    congr 1
    simp [column, List.filterMap_cons, hch]
  refine ⟨?_, ?_, ?_, ?_⟩
  · simp only [List.length_append, List.length_singleton, hri]
    omega
  · intro w hw2
    rcases List.mem_append.mp hw2 with h2 | h2
    · exact hpz w h2
    · rw [List.mem_singleton] at h2
      subst h2
      exact hw
  · intro c hc
    obtain ⟨ch, hch⟩ : ∃ ch, word[c]? = some ch :=
      ⟨_, List.getElem?_eq_getElem (hwlen ▸ hc)⟩
    have hlf := hfail c ch hc hch
    simp only [lf_fail, Bool.or_eq_false_iff] at hlf
    obtain ⟨hck, hmem, hnp⟩ :=
      (does_column_fit_eq_false_iff pm (column puzzle c)
        (column puzzle c ++ [ch]) puzzle).mp hlf.2
    rw [hcol c ch hc hch]
    obtain ⟨l, hgl⟩ := contains_key_some hck
    rw [hgl] at hmem
    exact hsub _ l hgl _ (by simpa using hmem)
  · have h0 : (0 : Nat) < N := hN
    obtain ⟨ch0, hch0⟩ : ∃ ch, word[0]? = some ch :=
      ⟨_, List.getElem?_eq_getElem (hwlen ▸ h0)⟩
    have hlf := hfail 0 ch0 h0 hch0
    simp only [lf_fail, Bool.or_eq_false_iff] at hlf
    have hwbt : would_be_transposed_row (puzzle.headD [])
        (column puzzle 0 ++ [ch0]) = false := by
      have h2 := hlf.1
      simpa using h2
    obtain ⟨hck, hmem, hnp⟩ :=
      (does_column_fit_eq_false_iff pm (column puzzle 0)
        (column puzzle 0 ++ [ch0]) puzzle).mp hlf.2
    have hne2 : column puzzle 0 ++ [ch0] ≠ puzzle.headD [] := by
      intro he
      rw [he] at hnp
      exact hnp (headD_mem hpne [])
    have hnlt : ¬ str_cmp (column puzzle 0 ++ [ch0]) (puzzle.headD []) =
        Ordering.lt := by
      simpa [would_be_transposed_row] using hwbt
    have hlt := str_cmp_lt_of_not_lt_of_ne hnlt hne2
    rw [headD_append hpne, hcol 0 ch0 h0 hch0]
    exact hlt

theorem fs_loop_sound (dict : List Word) (pm : StartsMap) (N : Nat)
    (hN : 1 ≤ N)
    (hlen : ∀ w ∈ dict, w.length = N)
    (hsub : ∀ p l, al_get pm p = some l → ∀ w ∈ l, w ∈ dict)
    (puzzle : List Word) (ri : Nat)
    (hri : puzzle.length = ri) (hr1 : 1 ≤ ri)
    (hpz : ∀ w ∈ puzzle, w ∈ dict)
    (recurse : List Word → List Word × List (List Word))
    (hrec1 : ∀ p, (recurse p).1 = p)
    (hrecS : ∀ w, w ∈ dict →
      ∀ sol ∈ (recurse (puzzle ++ [w])).2, emitted_ok dict N sol) :
    ∀ (l : List Word), (∀ w ∈ l, w ∈ dict) →
      ∀ st : List Word × List Word × List (List Word), st.1 = puzzle →
        (∀ sol ∈ st.2.2, emitted_ok dict N sol) →
        ∀ sol ∈ (fs_loop pm (N - 1) ri
            (construct_potential_transposed_puzzle puzzle) recurse l st).2.2,
          emitted_ok dict N sol := by
  intro l
  induction l with
  | nil => intro _ st _ hstS sol hsol; exact hstS sol hsol
  | cons word rest ih =>
    intro hl st hst1 hstS
    obtain ⟨p0, b0, o0⟩ := st
    have hp0 : puzzle = p0 := hst1.symm
    subst hp0
    have hwdict : word ∈ dict := hl word (List.mem_cons_self _ _)
    have hrestdict : ∀ w ∈ rest, w ∈ dict :=
      fun w hw => hl w (List.mem_cons_of_mem _ hw)
    rw [fs_loop_cons]
    by_cases h1 : skip_word word b0 puzzle = true
    · rw [if_pos h1]; exact ih hrestdict _ rfl hstS
    rw [if_neg h1]
    by_cases h2 : (fit_test pm (N - 1) ri puzzle
        (construct_potential_transposed_puzzle puzzle) word).1 = true
    · rw [if_pos h2]
      apply ih hrestdict
      · show (recurse (puzzle ++ [word])).1.dropLast = puzzle
        rw [hrec1, List.dropLast_concat]
      · intro sol hsol
        rcases List.mem_append.mp hsol with hsol | hsol
        · by_cases hc : (fit_test pm (N - 1) ri puzzle
              (construct_potential_transposed_puzzle puzzle) word).2 = N - 1
          · rw [if_pos hc] at hsol
            rcases List.mem_append.mp hsol with hsol | hsol
            · exact hstS sol hsol
            · rw [List.mem_singleton] at hsol
              subst hsol
              by_cases hrl : ri = N - 1
              · simp only [fit_test, if_pos hrl] at h2
                exact emission_ok dict pm N hN hlen hsub puzzle
                  (hrl ▸ hri) (hri ▸ hr1) hpz word hwdict h2
              · simp only [fit_test, if_neg hrl] at h2 hc
                obtain ⟨_, _, hval⟩ := word_fits_true h2
                rw [hval, hlen word hwdict] at hc
                omega
          · rw [if_neg hc] at hsol
            exact hstS sol hsol
        · exact hrecS word hwdict sol hsol
    · rw [if_neg h2]
      by_cases h3 : (fit_test pm (N - 1) ri puzzle
          (construct_potential_transposed_puzzle puzzle) word).2 = N - 1
      · rw [if_pos h3]; exact ih hrestdict _ rfl hstS
      · rw [if_neg h3]; exact ih hrestdict _ rfl hstS

theorem find_solutions_sound :
    ∀ (fuel : Nat) (dict : List Word) (pm : StartsMap) (N : Nat),
      1 ≤ N →
      (∀ w ∈ dict, w.length = N) →
      (∀ p l, al_get pm p = some l → ∀ w ∈ l, w ∈ dict) →
      ∀ (puzzle : List Word) (ri : Nat),
        puzzle.length = ri → 1 ≤ ri → (∀ w ∈ puzzle, w ∈ dict) →
        ∀ sol ∈ (find_solutions fuel dict pm (N - 1) puzzle ri).2,
          emitted_ok dict N sol := by
  intro fuel
  induction fuel with
  | zero =>
    intro dict pm N _ _ _ puzzle ri _ _ _ sol hsol
    simp [find_solutions_zero] at hsol
  | succ fuel ih =>
    intro dict pm N hN hlen hsub puzzle ri hri hr1 hpz sol hsol
    rw [find_solutions_succ] at hsol
    refine fs_loop_sound dict pm N hN hlen hsub puzzle ri hri hr1 hpz _
      (fun p => find_solutions_fst fuel dict pm (N - 1) p (ri + 1))
      ?_ dict (fun w hw => hw) _ rfl (by intro sol2 hsol2; simp at hsol2) sol hsol
    intro w hw sol2 hsol2
    refine ih dict pm N hN hlen hsub (puzzle ++ [w]) (ri + 1) ?_ (by omega) ?_ sol2 hsol2
    · simp [hri]
    · intro x hx
      rcases List.mem_append.mp hx with h2 | h2
      · exact hpz x h2
      · rw [List.mem_singleton] at h2
        subst h2
        exact hw

/-! ## Transpose identities -/

theorem transposeSq_length (sq : List Word) :
    (transposeSq sq).length = sq.length := by
  simp [transposeSq]

theorem transposeSq_getElem? {sq : List Word} {c : Nat} (hc : c < sq.length) :
    (transposeSq sq)[c]? = some (column sq c) := by
  simp [transposeSq, hc]

theorem transposeSq_mem {sq : List Word} {x : Word} :
    x ∈ transposeSq sq ↔ ∃ c, c < sq.length ∧ x = column sq c := by
  simp only [transposeSq, List.mem_map, List.mem_range]
  constructor
  · rintro ⟨c, hc, rfl⟩; exact ⟨c, hc, rfl⟩
  · rintro ⟨c, hc, rfl⟩; exact ⟨c, hc, rfl⟩

theorem transposeSq_headD {sq : List Word} (h : sq ≠ []) :
    (transposeSq sq).headD [] = column sq 0 := by
  have hlen : 0 < sq.length := List.length_pos_of_ne_nil h
  unfold transposeSq
  cases hn : sq.length with
  | zero => omega
  | succ n => rw [List.range_succ_eq_map]; rfl

theorem column_transposeSq {sq : List Word} {N : Nat} (hsq : sq.length = N)
    (hrows : ∀ w ∈ sq, w.length = N) {c : Nat} (hc : c < N) :
    column (transposeSq sq) c = sq.getD c [] := by
  have hTrows : ∀ w ∈ transposeSq sq, N ≤ w.length := by
    intro w hw
    obtain ⟨j, hj, rfl⟩ := transposeSq_mem.mp hw
    rw [column_length (fun x hx => le_of_eq (hrows x hx).symm) (hsq ▸ hj), hsq]
  obtain ⟨wc, hwc⟩ : ∃ wc, sq[c]? = some wc :=
    ⟨_, List.getElem?_eq_getElem (hsq ▸ hc)⟩
  have hwcmem : wc ∈ sq := List.getElem?_mem hwc
  have hgd : sq.getD c [] = wc := by
    rw [List.getD_eq_getElem?_getD, hwc]
    rfl
  rw [hgd]
  apply List.ext_getElem?
  intro r
  rw [column_getElem? hTrows hc r]
  by_cases hr : r < N
  · rw [transposeSq_getElem? (by rw [hsq]; exact hr)]
    simp only [Option.some_bind]
    rw [column_getElem? (fun x hx => le_of_eq (hrows x hx).symm) hr c]
    rw [hwc]
    rfl
  · rw [List.getElem?_eq_none (by rw [transposeSq_length, hsq]; omega)]
    rw [List.getElem?_eq_none (by rw [hrows wc hwcmem]; omega)]
    rfl

/-! ## Take and prefix helpers -/

theorem headD_take {S : List Word} {r : Nat} (hr : 1 ≤ r) (d : Word) :
    (S.take r).headD d = S.headD d := by
  cases S with
  | nil => simp
  | cons w rest =>
    cases r with
    | zero => omega
    | succ r => rfl

theorem take_append_getElem {S : List Word} {r : Nat} (hr : r < S.length) :
    S.take r ++ [S[r]] = S.take (r + 1) := by
  rw [List.take_succ, List.getElem?_eq_getElem hr]
  rfl

theorem getElem_not_mem_take {S : List Word} (hnd : S.Nodup) {r : Nat}
    (hr : r < S.length) : S[r] ∉ S.take r := by
  intro hmem
  have hsplit : S.take r ++ S.drop r = S := List.take_append_drop r S
  have hdrop : S.drop r = S[r] :: S.drop (r + 1) := List.drop_eq_getElem_cons hr
  have hnd2 : (S.take r ++ S.drop r).Nodup := by rw [hsplit]; exact hnd
  rw [List.nodup_append] at hnd2
  exact hnd2.2.2 hmem (by rw [hdrop]; exact List.mem_cons_self _ _)

theorem prefix_take_eq {p v : Word} (h : p.isPrefixOf v = true) :
    v.take p.length = p := by
  rw [List.isPrefixOf_iff_prefix] at h
  exact (List.prefix_iff_eq_take.mp h).symm

theorem prefix_getElem? {p v : Word} (h : p.isPrefixOf v = true) {i : Nat}
    (hi : i < p.length) : v[i]? = p[i]? := by
  have := prefix_take_eq h
  conv_rhs => rw [← this]
  rw [List.getElem?_take_of_lt hi]

/-! ## Appending the search loop -/

theorem fs_loop_append (pm : StartsMap) (lri ri : Nat) (cols : List Word)
    (recurse : List Word → List Word × List (List Word)) :
    ∀ (l1 l2 : List Word) (st : List Word × List Word × List (List Word)),
      fs_loop pm lri ri cols recurse (l1 ++ l2) st =
        fs_loop pm lri ri cols recurse l2 (fs_loop pm lri ri cols recurse l1 st) := by
  intro l1
  induction l1 with
  | nil => intro l2 st; rfl
  | cons word rest ih =>
    rintro l2 ⟨puzzle, bad_starts, out⟩
    rw [List.cons_append, fs_loop_cons, fs_loop_cons]
    by_cases h1 : skip_word word bad_starts puzzle = true
    · rw [if_pos h1, if_pos h1, ih]
    rw [if_neg h1, if_neg h1]
    by_cases h2 : (fit_test pm lri ri puzzle cols word).1 = true
    · rw [if_pos h2, if_pos h2, ih]
    rw [if_neg h2, if_neg h2]
    by_cases h3 : (fit_test pm lri ri puzzle cols word).2 = lri
    · rw [if_pos h3, if_pos h3, ih]
    · rw [if_neg h3, if_neg h3, ih]

/-! ## Frame facts for the completeness argument -/

theorem frame_cols {S : List Word} {N : Nat} (hS : S.length = N)
    (hSlen : ∀ w ∈ S, w.length = N) (hN : 1 ≤ N) {r : Nat} (hr1 : 1 ≤ r)
    (_hrN : r ≤ N) :
    (∀ c, c < N →
      (construct_potential_transposed_puzzle (S.take r))[c]? =
        some ((column S c).take r)) ∧
    (construct_potential_transposed_puzzle (S.take r)).length = N := by
  have hSne : S ≠ [] := by
    intro h
    rw [h] at hS
    simp at hS
    omega
  have htne : S.take r ≠ [] := by
    intro h
    have h2 := congrArg List.length h
    rw [List.length_take, hS] at h2
    simp at h2
    omega
  have htlen : ∀ w ∈ S.take r, w.length = N :=
    fun w hw => hSlen w (List.mem_of_mem_take hw)
  constructor
  · intro c hc
    rw [construct_getElem? htne htlen hc]
    rw [column_take (fun w hw => le_of_eq (hSlen w hw).symm) hc r]
  · rw [construct_length, headD_take hr1]
    exact hSlen _ (headD_mem hSne [])

theorem col_take_snoc {S : List Word} {N : Nat} (hS : S.length = N)
    (hSlen : ∀ w ∈ S, w.length = N) {r c : Nat} (hr : r < N) (hc : c < N)
    {ch : Char} (hch : (S.getD r [])[c]? = some ch) :
    (column S c).take r ++ [ch] = (column S c).take (r + 1) := by
  rw [List.take_succ]
  congr 1
  rw [column_getElem? (fun w hw => le_of_eq (hSlen w hw).symm) hc r]
  have hrS : r < S.length := hS ▸ hr
  rw [List.getElem?_eq_getElem hrS]
  simp only [Option.some_bind]
  rw [List.getD_eq_getElem?_getD, List.getElem?_eq_getElem hrS] at hch
  simp only [Option.getD_some] at hch
  rw [hch]
  rfl

theorem column_length_eq {S : List Word} {N : Nat} (hS : S.length = N)
    (hSlen : ∀ w ∈ S, w.length = N) {c : Nat} (hc : c < N) :
    (column S c).length = N := by
  rw [column_length (fun w hw => le_of_eq (hSlen w hw).symm) hc, hS]

theorem col_take_full {S : List Word} {N : Nat} (hS : S.length = N)
    (hSlen : ∀ w ∈ S, w.length = N) (hN : 1 ≤ N) {c : Nat} (hc : c < N) :
    (column S c).take ((N - 1) + 1) = column S c := by
  have h1 : (N - 1) + 1 = N := by omega
  rw [h1, ← column_length_eq hS hSlen hc, List.take_length]

/-- Any prefix that `find_solutions` records into `bad_starts` in a frame
walking a prefix of the target square `S` is not a prefix of the next target
row: recording never blocks the word the completeness argument needs. -/
theorem record_not_prefix
    {dict : List Word} {pm : StartsMap} {N : Nat} {S : List Word}
    (hN : 3 ≤ N)
    (hlen : ∀ w ∈ dict, w.length = N)
    (hkey : ∀ w ∈ dict, ∀ k, 2 ≤ k → k ≤ N → contains_key pm (w.take k) = true)
    (hmemlaw : ∀ w ∈ dict, ∀ k, 2 ≤ k → k ≤ N →
      w ∈ (al_get pm (w.take k)).getD [])
    (hS : S.length = N) (hrows : ∀ w ∈ S, w ∈ dict)
    (hcolsd : ∀ c, c < N → column S c ∈ dict)
    (hnc : ∀ c, c < N → column S c ∉ S.take (N - 1))
    (hded : would_be_transposed_row (S.headD []) (column S 0) = false)
    {r : Nat} (hr1 : 1 ≤ r) (hrN : r ≤ N - 1)
    {word : Word} (hw : word ∈ dict) {c : Nat}
    (hfit : fit_test pm (N - 1) r (S.take r)
      (construct_potential_transposed_puzzle (S.take r)) word = (false, c))
    (hclri : c ≠ N - 1) :
    (word.take (c + 1)).isPrefixOf (S.getD r []) = false := by
  have hSlen : ∀ w ∈ S, w.length = N := fun w h => hlen w (hrows w h)
  obtain ⟨hcolsat, hcolslen⟩ :=
    frame_cols hS hSlen (by omega) hr1 (by omega)
  have hwlen : word.length = N := hlen word hw
  by_contra hpre
  rw [Bool.not_eq_false] at hpre
  -- common consequences of c being a failing index strictly inside the word
  have hchar : ∀ (hcN : c < N), (S.getD r [])[c]? = word[c]? := by
    intro hcN
    have hlt : c < (word.take (c + 1)).length := by
      rw [List.length_take]
      omega
    have h2 := prefix_getElem? hpre hlt
    rw [List.getElem?_take_of_lt (by omega)] at h2
    exact h2
  by_cases hreq : r = N - 1
  · -- final-row frame
    subst hreq
    simp only [fit_test, if_pos rfl] at hfit
    have hsome := last_word_fits_eq_false hfit
    rw [last_fits_from_eq_some_iff] at hsome
    obtain ⟨j, p, hpj, hcj, hjfail, _⟩ := hsome
    have hj : c = j := by omega
    subst hj
    have hcN : c < N := by
      have h2 : c < ((construct_potential_transposed_puzzle
          (S.take (N - 1))).zip word).length := by
        obtain ⟨h3, _⟩ := List.getElem?_eq_some.mp hpj
        exact h3
      rw [List.length_zip, hcolslen, hwlen] at h2
      simpa using h2
    obtain ⟨hp1, hp2⟩ := List.getElem?_zip_eq_some.mp hpj
    rw [hcolsat c hcN] at hp1
    have hp1eq : p.1 = (column S c).take (N - 1) :=
      (Option.some.inj hp1).symm
    have hp2eq : (S.getD (N - 1) [])[c]? = some p.2 := by
      rw [hchar hcN]
      exact hp2
    have hfull : p.1 ++ [p.2] = column S c := by
      rw [hp1eq]
      rw [col_take_snoc hS hSlen (by omega) hcN hp2eq]
      exact col_take_full hS hSlen (by omega) hcN
    rw [Nat.zero_add, lf_fail, Bool.or_eq_true] at hjfail
    rcases hjfail with hA | hB
    · simp only [Bool.and_eq_true, beq_iff_eq] at hA
      obtain ⟨hj0, hwbt⟩ := hA
      subst hj0
      rw [hfull, headD_take (by omega)] at hwbt
      rw [hded] at hwbt
      cases hwbt
    · have hdcf : does_column_fit pm p.1 (p.1 ++ [p.2]) (S.take (N - 1)) =
          false := by
        rw [does_column_fit_eq_false_iff]
        refine ⟨?_, ?_, ?_⟩
        · rw [hp1eq]
          exact hkey _ (hcolsd c hcN) (N - 1) (by omega) (by omega)
        · rw [hfull, hp1eq]
          exact hmemlaw _ (hcolsd c hcN) (N - 1) (by omega) (by omega)
        · rw [hfull]
          exact hnc c hcN
      rw [hdcf] at hB
      cases hB
  · -- intermediate frame
    simp only [fit_test, if_neg hreq] at hfit
    rcases word_fits_eq_false hfit with ⟨hl, hsome⟩ | ⟨hnl, _⟩
    · rw [fits_from_eq_some_iff] at hsome
      obtain ⟨j, p, hpj, hcj, hjfail, _⟩ := hsome
      have hj : c = j := by omega
      subst hj
      have hcN : c < N := by
        have h2 : c < ((construct_potential_transposed_puzzle
            (S.take r)).zip word).length := by
          obtain ⟨h3, _⟩ := List.getElem?_eq_some.mp hpj
          exact h3
        rw [List.length_zip, hcolslen, hwlen] at h2
        simpa using h2
      obtain ⟨hp1, hp2⟩ := List.getElem?_zip_eq_some.mp hpj
      rw [hcolsat c hcN] at hp1
      have hp1eq : p.1 = (column S c).take r :=
        (Option.some.inj hp1).symm
      have hp2eq : (S.getD r [])[c]? = some p.2 := by
        rw [hchar hcN]
        exact hp2
      have hfull : p.1 ++ [p.2] = (column S c).take (r + 1) := by
        rw [hp1eq]
        exact col_take_snoc hS hSlen (by omega) hcN hp2eq
      have hck : contains_key pm (p.1 ++ [p.2]) = true := by
        rw [hfull]
        exact hkey _ (hcolsd c hcN) (r + 1) (by omega) (by omega)
      rw [hck] at hjfail
      cases hjfail
    · rw [hcolslen, hwlen] at hnl
      exact hnl rfl

theorem getD_eq_getElem {S : List Word} {r : Nat} (hr : r < S.length) :
    S.getD r [] = S[r] := by
  rw [List.getD_eq_getElem?_getD, List.getElem?_eq_getElem hr]
  rfl

theorem skip_word_target_false {S : List Word} {r : Nat} {b : List Word}
    (hnd : S.Nodup) (hr : r < S.length)
    (hb : ∀ p ∈ b, p = [] ∨ p.isPrefixOf (S.getD r []) = false) :
    skip_word (S.getD r []) b (S.take r) = false := by
  rw [skip_word, Bool.or_eq_false_iff]
  constructor
  · rw [List.any_eq_false]
    intro p hp
    rcases hb p hp with h | h
    · subst h; simp
    · rw [h, Bool.and_false]
      exact Bool.false_ne_true
  · rw [decide_eq_false_iff_not, getD_eq_getElem hr]
    exact getElem_not_mem_take hnd hr

theorem target_fits_mid {dict : List Word} {pm : StartsMap} {N : Nat}
    {S : List Word}
    (hlen : ∀ w ∈ dict, w.length = N)
    (hkey : ∀ w ∈ dict, ∀ k, 2 ≤ k → k ≤ N → contains_key pm (w.take k) = true)
    (hS : S.length = N) (hrows : ∀ w ∈ S, w ∈ dict)
    (hcolsd : ∀ c, c < N → column S c ∈ dict)
    {r : Nat} (hr1 : 1 ≤ r) (hrN : r ≤ N - 1) (hN : 1 ≤ N) :
    word_fits pm (S.getD r [])
      (construct_potential_transposed_puzzle (S.take r)) =
      (true, N) := by
  have hSlen : ∀ w ∈ S, w.length = N := fun w h => hlen w (hrows w h)
  obtain ⟨hcolsat, hcolslen⟩ := frame_cols hS hSlen hN hr1 (by omega)
  have hrS : r < S.length := by omega
  have hSrlen : (S.getD r []).length = N := by
    rw [getD_eq_getElem hrS]
    exact hSlen _ (List.getElem_mem hrS)
  have hl : (construct_potential_transposed_puzzle (S.take r)).length =
      (S.getD r []).length := by rw [hcolslen, hSrlen]
  have hnone : fits_from pm 0 ((construct_potential_transposed_puzzle
      (S.take r)).zip (S.getD r [])) = none := by
    rw [fits_from_eq_none_iff]
    intro p hp
    obtain ⟨j, hpj⟩ := List.mem_iff_getElem?.mp hp
    have hjN : j < N := by
      obtain ⟨h3, _⟩ := List.getElem?_eq_some.mp hpj
      rw [List.length_zip, hcolslen, hSrlen] at h3
      simpa using h3
    obtain ⟨hp1, hp2⟩ := List.getElem?_zip_eq_some.mp hpj
    rw [hcolsat j hjN] at hp1
    have hp1eq : p.1 = (column S j).take r := (Option.some.inj hp1).symm
    have hfull : p.1 ++ [p.2] = (column S j).take (r + 1) := by
      rw [hp1eq]
      exact col_take_snoc hS hSlen (by omega) hjN hp2
    rw [hfull]
    exact hkey _ (hcolsd j hjN) (r + 1) (by omega) (by omega)
  rw [word_fits_of_none hl hnone, hSrlen]

theorem target_fits_final {dict : List Word} {pm : StartsMap} {N : Nat}
    {S : List Word} (hN : 3 ≤ N)
    (hlen : ∀ w ∈ dict, w.length = N)
    (hkey : ∀ w ∈ dict, ∀ k, 2 ≤ k → k ≤ N → contains_key pm (w.take k) = true)
    (hmemlaw : ∀ w ∈ dict, ∀ k, 2 ≤ k → k ≤ N →
      w ∈ (al_get pm (w.take k)).getD [])
    (hS : S.length = N) (hrows : ∀ w ∈ S, w ∈ dict)
    (hcolsd : ∀ c, c < N → column S c ∈ dict)
    (hnc : ∀ c, c < N → column S c ∉ S.take (N - 1))
    (hded : would_be_transposed_row (S.headD []) (column S 0) = false) :
    last_word_fits pm (S.take (N - 1)) (S.getD (N - 1) [])
      (construct_potential_transposed_puzzle (S.take (N - 1))) =
      (true, N - 1) := by
  have hSlen : ∀ w ∈ S, w.length = N := fun w h => hlen w (hrows w h)
  obtain ⟨hcolsat, hcolslen⟩ :=
    @frame_cols _ _ hS hSlen (by omega) (N - 1) (by omega) (by omega)
  have hrS : N - 1 < S.length := by omega
  have hSrlen : (S.getD (N - 1) []).length = N := by
    rw [getD_eq_getElem hrS]
    exact hSlen _ (List.getElem_mem hrS)
  have hnone : last_fits_from pm (S.take (N - 1))
      ((S.take (N - 1)).headD []) 0
      ((construct_potential_transposed_puzzle (S.take (N - 1))).zip
        (S.getD (N - 1) [])) = none := by
    rw [last_fits_from_eq_none_iff]
    intro j p hpj
    have hjN : j < N := by
      obtain ⟨h3, _⟩ := List.getElem?_eq_some.mp hpj
      rw [List.length_zip, hcolslen, hSrlen] at h3
      simpa using h3
    obtain ⟨hp1, hp2⟩ := List.getElem?_zip_eq_some.mp hpj
    rw [hcolsat j hjN] at hp1
    have hp1eq : p.1 = (column S j).take (N - 1) := (Option.some.inj hp1).symm
    have hfull : p.1 ++ [p.2] = column S j := by
      rw [hp1eq, col_take_snoc hS hSlen (by omega) hjN hp2]
      exact col_take_full hS hSlen (by omega) hjN
    rw [Nat.zero_add, lf_fail, Bool.or_eq_false_iff]
    constructor
    · cases hj0 : (j == 0) with
      | false => rw [Bool.false_and]
      | true =>
        rw [Bool.true_and, hfull]
        have hj0' : j = 0 := by simpa using hj0
        subst hj0'
        rw [headD_take (by omega)]
        exact hded
    · rw [does_column_fit_eq_false_iff]
      refine ⟨?_, ?_, ?_⟩
      · rw [hp1eq]
        exact hkey _ (hcolsd j hjN) (N - 1) (by omega) (by omega)
      · rw [hfull, hp1eq]
        exact hmemlaw _ (hcolsd j hjN) (N - 1) (by omega) (by omega)
      · rw [hfull]
        exact hnc j hjN
  rw [last_word_fits_of_none hnone, hSrlen]

theorem fs_loop_badinv {dict : List Word} {pm : StartsMap} {N : Nat}
    {S : List Word} (hN : 3 ≤ N)
    (hlen : ∀ w ∈ dict, w.length = N)
    (hkey : ∀ w ∈ dict, ∀ k, 2 ≤ k → k ≤ N → contains_key pm (w.take k) = true)
    (hmemlaw : ∀ w ∈ dict, ∀ k, 2 ≤ k → k ≤ N →
      w ∈ (al_get pm (w.take k)).getD [])
    (hS : S.length = N) (hrows : ∀ w ∈ S, w ∈ dict)
    (hcolsd : ∀ c, c < N → column S c ∈ dict)
    (hnc : ∀ c, c < N → column S c ∉ S.take (N - 1))
    (hded : would_be_transposed_row (S.headD []) (column S 0) = false)
    {r : Nat} (hr1 : 1 ≤ r) (hrN : r ≤ N - 1)
    {recurse : List Word → List Word × List (List Word)}
    (hrec1 : ∀ p, (recurse p).1 = p) :
    ∀ (l : List Word), (∀ w ∈ l, w ∈ dict) →
      ∀ st : List Word × List Word × List (List Word), st.1 = S.take r →
        (∀ p ∈ st.2.1, p = [] ∨ p.isPrefixOf (S.getD r []) = false) →
        (fs_loop pm (N - 1) r
            (construct_potential_transposed_puzzle (S.take r)) recurse l st).1 =
          S.take r ∧
        ∀ p ∈ (fs_loop pm (N - 1) r
            (construct_potential_transposed_puzzle (S.take r)) recurse l
            st).2.1,
          p = [] ∨ p.isPrefixOf (S.getD r []) = false := by
  intro l
  induction l with
  | nil => intro _ st h1 h2; exact ⟨h1, h2⟩
  | cons word rest ih =>
    intro hl st hst1 hstB
    obtain ⟨p0, b0, o0⟩ := st
    have hp0 : S.take r = p0 := hst1.symm
    subst hp0
    have hwdict : word ∈ dict := hl word (List.mem_cons_self _ _)
    have hrestdict : ∀ w ∈ rest, w ∈ dict :=
      fun w hw => hl w (List.mem_cons_of_mem _ hw)
    rw [fs_loop_cons]
    by_cases h1 : skip_word word b0 (S.take r) = true
    · rw [if_pos h1]; exact ih hrestdict _ rfl hstB
    rw [if_neg h1]
    by_cases h2 : (fit_test pm (N - 1) r (S.take r)
        (construct_potential_transposed_puzzle (S.take r)) word).1 = true
    · rw [if_pos h2]
      refine ih hrestdict _ ?_ hstB
      show (recurse (S.take r ++ [word])).1.dropLast = S.take r
      rw [hrec1, List.dropLast_concat]
    rw [if_neg h2]
    by_cases h3 : (fit_test pm (N - 1) r (S.take r)
        (construct_potential_transposed_puzzle (S.take r)) word).2 = N - 1
    · rw [if_pos h3]; exact ih hrestdict _ rfl hstB
    rw [if_neg h3]
    refine ih hrestdict _ rfl ?_
    intro p hp
    rcases List.mem_or_eq_of_mem_set hp with hp2 | hp2
    · exact hstB p hp2
    · right
      subst hp2
      have hfalse : (fit_test pm (N - 1) r (S.take r)
          (construct_potential_transposed_puzzle (S.take r)) word).1 = false :=
        Bool.not_eq_true _ ▸ by
          simpa using h2
      have hfit : fit_test pm (N - 1) r (S.take r)
          (construct_potential_transposed_puzzle (S.take r)) word =
          (false, (fit_test pm (N - 1) r (S.take r)
            (construct_potential_transposed_puzzle (S.take r)) word).2) := by
        rw [← hfalse]
      exact record_not_prefix hN hlen hkey hmemlaw hS hrows hcolsd hnc hded
        hr1 hrN hwdict hfit h3

/-- Completeness of the search along a target square `S` whose chosen
orientation survives every pruning rule: starting from any frame walking a
prefix of `S`, the square is emitted. -/
theorem find_solutions_complete_frame {dict : List Word} {pm : StartsMap}
    {N : Nat} {S : List Word} (hN : 3 ≤ N)
    (hlen : ∀ w ∈ dict, w.length = N)
    (hkey : ∀ w ∈ dict, ∀ k, 2 ≤ k → k ≤ N → contains_key pm (w.take k) = true)
    (hmemlaw : ∀ w ∈ dict, ∀ k, 2 ≤ k → k ≤ N →
      w ∈ (al_get pm (w.take k)).getD [])
    (hS : S.length = N) (hrows : ∀ w ∈ S, w ∈ dict)
    (hcolsd : ∀ c, c < N → column S c ∈ dict)
    (hnd : S.Nodup)
    (hnc : ∀ c, c < N → column S c ∉ S.take (N - 1))
    (hded : would_be_transposed_row (S.headD []) (column S 0) = false) :
    ∀ (fuel r : Nat), 1 ≤ r → r ≤ N - 1 → N - r ≤ fuel →
      S ∈ (find_solutions fuel dict pm (N - 1) (S.take r) r).2 := by
  intro fuel
  induction fuel with
  | zero => intro r h1 h2 h3; omega
  | succ fuel ih =>
    intro r hr1 hrN hfuel
    have hrS : r < S.length := by omega
    have hSr_dict : S.getD r [] ∈ dict := by
      rw [getD_eq_getElem hrS]
      exact hrows _ (List.getElem_mem hrS)
    obtain ⟨l1, l2, hdict⟩ := List.append_of_mem hSr_dict
    have hrec1 : ∀ p, (find_solutions fuel dict pm (N - 1) p (r + 1)).1 = p :=
      fun p => find_solutions_fst fuel dict pm (N - 1) p (r + 1)
    rw [find_solutions_succ]
    show S ∈ (fs_loop pm (N - 1) r
      (construct_potential_transposed_puzzle (S.take r))
      (fun p => find_solutions fuel dict pm (N - 1) p (r + 1)) dict
      (S.take r, List.replicate (N - 1) [], [])).2.2
    nth_rewrite 2 [hdict]
    rw [fs_loop_append]
    obtain ⟨hst1fst, hst1B⟩ := fs_loop_badinv hN hlen hkey hmemlaw hS hrows
      hcolsd hnc hded hr1 hrN hrec1 l1
      (by
        intro w hw
        rw [hdict]
        exact List.mem_append.mpr (Or.inl hw))
      (S.take r, List.replicate (N - 1) [], []) rfl
      (by
        intro p hp
        left
        exact (List.mem_replicate.mp hp).2)
    set st1 := fs_loop pm (N - 1) r
      (construct_potential_transposed_puzzle (S.take r))
      (fun p => find_solutions fuel dict pm (N - 1) p (r + 1)) l1
      (S.take r, List.replicate (N - 1) [], []) with hst1def
    show S ∈ (fs_loop pm (N - 1) r
      (construct_potential_transposed_puzzle (S.take r))
      (fun p => find_solutions fuel dict pm (N - 1) p (r + 1))
      (S.getD r [] :: l2) (st1.1, st1.2.1, st1.2.2)).2.2
    rw [fs_loop_cons]
    have hskip : skip_word (S.getD r []) st1.2.1 st1.1 = false := by
      rw [hst1fst]
      exact skip_word_target_false hnd hrS hst1B
    rw [if_neg (by rw [hskip]; exact Bool.false_ne_true), hst1fst]
    by_cases hreq : r = N - 1
    · subst hreq
      have hfit : fit_test pm (N - 1) (N - 1) (S.take (N - 1))
          (construct_potential_transposed_puzzle (S.take (N - 1)))
          (S.getD (N - 1) []) = (true, N - 1) := by
        rw [fit_test, if_pos rfl]
        exact target_fits_final hN hlen hkey hmemlaw hS hrows hcolsd hnc hded
      rw [hfit]
      rw [if_pos (show ((true, N - 1) : Bool × Nat).1 = true from rfl)]
      rw [if_pos (show ((true, N - 1) : Bool × Nat).2 = N - 1 from rfl)]
      apply fs_loop_out_mono
      show S ∈ (st1.2.2 ++ [S.take (N - 1) ++ [S.getD (N - 1) []]]) ++ _
      have hsnoc : S.take (N - 1) ++ [S.getD (N - 1) []] = S := by
        rw [getD_eq_getElem hrS, take_append_getElem hrS]
        have h2 : N - 1 + 1 = N := by omega
        rw [h2, ← hS, List.take_length]
      rw [hsnoc]
      exact List.mem_append.mpr (Or.inl (List.mem_append.mpr
        (Or.inr (List.mem_singleton.mpr rfl))))
    · have hfit : fit_test pm (N - 1) r (S.take r)
          (construct_potential_transposed_puzzle (S.take r))
          (S.getD r []) = (true, N) := by
        rw [fit_test, if_neg hreq]
        exact target_fits_mid hlen hkey hS hrows hcolsd hr1 hrN (by omega)
      rw [hfit]
      rw [if_pos (show ((true, N) : Bool × Nat).1 = true from rfl)]
      rw [if_neg (show ¬ ((true, N) : Bool × Nat).2 = N - 1 by
        show ¬ N = N - 1
        omega)]
      apply fs_loop_out_mono
      show S ∈ _ ++ (find_solutions fuel dict pm (N - 1)
        (S.take r ++ [S.getD r []]) (r + 1)).2
      apply List.mem_append.mpr
      right
      have hsnoc : S.take r ++ [S.getD r []] = S.take (r + 1) := by
        rw [getD_eq_getElem hrS, take_append_getElem hrS]
      rw [hsnoc]
      exact ih (r + 1) (by omega) (by omega) (by omega)

/-! ## Entry-predicate preservation for the map operations -/

theorem al_push_pred {P : Word × List Word → Prop} {m : StartsMap}
    {k w : Word} (hm : ∀ e ∈ m, P e)
    (hkeep : ∀ l0, P (k, l0) → P (k, l0 ++ [w])) (hnew : P (k, [w])) :
    ∀ e ∈ al_push m k w, P e := by
  induction m with
  | nil =>
    intro e he
    simp [al_push] at he
    rw [he]
    exact hnew
  | cons e0 rest ih =>
    obtain ⟨k0, l0⟩ := e0
    intro e he
    by_cases h0 : k0 = k
    · subst h0
      simp only [al_push, if_pos rfl] at he
      rcases List.mem_cons.mp he with h | h
      · rw [h]
        exact hkeep l0 (hm _ (List.mem_cons_self _ _))
      · exact hm e (List.mem_cons_of_mem _ h)
    · simp only [al_push, if_neg h0] at he
      rcases List.mem_cons.mp he with h | h
      · rw [h]
        exact hm _ (List.mem_cons_self _ _)
      · exact ih (fun e2 he2 => hm e2 (List.mem_cons_of_mem _ he2)) e h

theorem al_extend_pred {P : Word × List Word → Prop} {m ns : StartsMap}
    (hm : ∀ e ∈ m, P e) (hns : ∀ e ∈ ns, P e) :
    ∀ e ∈ al_extend m ns, P e := by
  intro e he
  rcases mem_al_extend he with h | h
  · exact hm e h
  · exact hns e h

/-! ## The seeding pass of `generate_starts_that_have_words` -/

theorem seed_words_get_ne {ws : Nat} {letter : Char} {m m2 : StartsMap}
    {l : List Word} (hok : seed_words ws letter m l = .ok m2) {k : Word}
    (hk : k ≠ [letter]) : al_get m2 k = al_get m k := by
  induction l generalizing m with
  | nil =>
    simp only [seed_words, Except.ok.injEq] at hok
    rw [hok]
  | cons word rest ih =>
    simp only [seed_words] at hok
    split at hok
    · cases hok
    · split at hok
      · rw [ih hok, al_get_push, if_neg hk]
      · exact ih hok

theorem seed_words_getD_letter {ws : Nat} {letter : Char} {m m2 : StartsMap}
    {l : List Word} (hok : seed_words ws letter m l = .ok m2) :
    (al_get m2 [letter]).getD [] =
      (al_get m [letter]).getD [] ++
        l.filter fun w => ([letter] : Word).isPrefixOf w := by
  induction l generalizing m with
  | nil =>
    simp only [seed_words, Except.ok.injEq] at hok
    rw [hok]
    simp
  | cons word rest ih =>
    simp only [seed_words] at hok
    split at hok
    · cases hok
    · split at hok
      · rename_i hpre
        rw [ih hok, al_get_push, if_pos rfl]
        simp only [List.filter_cons, hpre]
        simp [List.append_assoc]
      · rename_i hpre
        rw [ih hok]
        simp only [List.filter_cons]
        rw [Bool.not_eq_true] at hpre
        simp [hpre]

theorem seed_words_getD_mono {ws : Nat} {letter : Char} {m m2 : StartsMap}
    {l : List Word} (hok : seed_words ws letter m l = .ok m2) (k : Word)
    (x : Word) (hx : x ∈ (al_get m k).getD []) :
    x ∈ (al_get m2 k).getD [] := by
  by_cases hk : k = [letter]
  · subst hk
    rw [seed_words_getD_letter hok]
    exact List.mem_append.mpr (Or.inl hx)
  · rw [seed_words_get_ne hok hk]
    exact hx

theorem seed_words_sizes_of_ok {ws : Nat} {letter : Char} {m m2 : StartsMap}
    {l : List Word} (hok : seed_words ws letter m l = .ok m2) :
    ∀ w ∈ l, w.length = ws := by
  induction l generalizing m with
  | nil => intro w hw; cases hw
  | cons word rest ih =>
    intro w hw
    simp only [seed_words] at hok
    split at hok
    · cases hok
    · rename_i hsize
      rw [Decidable.not_not] at hsize
      rcases List.mem_cons.mp hw with h | h
      · rw [h]; exact hsize
      · split at hok
        · exact ih hok w h
        · exact ih hok w h

theorem seed_words_isOk {ws : Nat} {letter : Char} {l : List Word}
    (h : ∀ w ∈ l, w.length = ws) :
    ∀ m, ∃ m2, seed_words ws letter m l = .ok m2 := by
  induction l with
  | nil => intro m; exact ⟨m, rfl⟩
  | cons word rest ih =>
    intro m
    have hw : word.length = ws := h word (List.mem_cons_self _ _)
    have hrest : ∀ w ∈ rest, w.length = ws :=
      fun w hw2 => h w (List.mem_cons_of_mem _ hw2)
    simp only [seed_words]
    rw [if_neg (show ¬word.length ≠ ws from fun hh => hh hw)]
    split
    · exact ih hrest _
    · exact ih hrest _

theorem seed_words_error_shape {ws : Nat} {letter : Char} {m : StartsMap}
    {l : List Word} {e : DictionaryErrors}
    (h : seed_words ws letter m l = .error e) :
    ∃ w ∈ l, e = .InCorrectWordSize w ws w.length ∧ w.length ≠ ws := by
  induction l generalizing m with
  | nil => cases h
  | cons word rest ih =>
    simp only [seed_words] at h
    split at h
    · rename_i hsize
      injection h with h2
      exact ⟨word, List.mem_cons_self _ _, h2.symm, hsize⟩
    · split at h
      · obtain ⟨w, hw, he, hs⟩ := ih h
        exact ⟨w, List.mem_cons_of_mem _ hw, he, hs⟩
      · obtain ⟨w, hw, he, hs⟩ := ih h
        exact ⟨w, List.mem_cons_of_mem _ hw, he, hs⟩

theorem seed_words_nodup {ws : Nat} {letter : Char} {m m2 : StartsMap}
    {l : List Word} (hok : seed_words ws letter m l = .ok m2)
    (hnd : (m.map Prod.fst).Nodup) : (m2.map Prod.fst).Nodup := by
  induction l generalizing m with
  | nil =>
    simp only [seed_words, Except.ok.injEq] at hok
    rw [← hok]
    exact hnd
  | cons word rest ih =>
    simp only [seed_words] at hok
    split at hok
    · cases hok
    · split at hok
      · exact ih hok (nodup_keys_al_push hnd _ _)
      · exact ih hok hnd

theorem seed_words_pred {P : Word × List Word → Prop} {ws : Nat}
    {letter : Char} {m m2 : StartsMap} {l : List Word}
    (hok : seed_words ws letter m l = .ok m2) (hm : ∀ e ∈ m, P e)
    (hkeep : ∀ l0 w, w ∈ l → P ([letter], l0) → P ([letter], l0 ++ [w]))
    (hnew : ∀ w ∈ l, P ([letter], [w])) : ∀ e ∈ m2, P e := by
  induction l generalizing m with
  | nil =>
    simp only [seed_words, Except.ok.injEq] at hok
    rw [← hok]
    exact hm
  | cons word rest ih =>
    simp only [seed_words] at hok
    split at hok
    · cases hok
    · split at hok
      · refine ih hok ?_
          (fun l0 w hw => hkeep l0 w (List.mem_cons_of_mem _ hw))
          (fun w hw => hnew w (List.mem_cons_of_mem _ hw))
        exact al_push_pred hm
          (fun l0 => hkeep l0 word (List.mem_cons_self _ _))
          (hnew word (List.mem_cons_self _ _))
      · exact ih hok hm
          (fun l0 w hw => hkeep l0 w (List.mem_cons_of_mem _ hw))
          (fun w hw => hnew w (List.mem_cons_of_mem _ hw))

theorem seed_letters_isOk {ws : Nat} {dict : List Word}
    (h : ∀ w ∈ dict, w.length = ws) :
    ∀ (letters : List Char) (m : StartsMap),
      ∃ m2, seed_letters ws dict m letters = .ok m2 := by
  intro letters
  induction letters with
  | nil => intro m; exact ⟨m, rfl⟩
  | cons letter rest ih =>
    intro m
    obtain ⟨mid, hmid⟩ := @seed_words_isOk _ letter _ h m
    obtain ⟨m2, hm2⟩ := ih mid
    refine ⟨m2, ?_⟩
    simp only [seed_letters, hmid]
    exact hm2

theorem seed_letters_error_shape {ws : Nat} {dict : List Word}
    {e : DictionaryErrors} :
    ∀ (letters : List Char) (m : StartsMap),
      seed_letters ws dict m letters = .error e →
      ∃ w ∈ dict, e = .InCorrectWordSize w ws w.length ∧ w.length ≠ ws := by
  intro letters
  induction letters with
  | nil => intro m h; cases h
  | cons letter rest ih =>
    intro m h
    simp only [seed_letters] at h
    split at h
    · rename_i e2 herr
      injection h with h2
      subst h2
      exact seed_words_error_shape herr
    · exact ih _ h

theorem seed_letters_error_of {ws : Nat} {dict : List Word} {letter : Char}
    (letters : List Char) (m : StartsMap)
    (h : ∃ w ∈ dict, w.length ≠ ws) :
    ∃ e, seed_letters ws dict m (letter :: letters) = .error e := by
  cases herr : seed_words ws letter m dict with
  | error e =>
    refine ⟨e, ?_⟩
    simp only [seed_letters, herr]
  | ok mid =>
    obtain ⟨w, hw, hs⟩ := h
    exact absurd (seed_words_sizes_of_ok herr w hw) hs

theorem seed_letters_nodup {ws : Nat} {dict : List Word} :
    ∀ (letters : List Char) (m m2 : StartsMap),
      seed_letters ws dict m letters = .ok m2 →
      (m.map Prod.fst).Nodup → (m2.map Prod.fst).Nodup := by
  intro letters
  induction letters with
  | nil =>
    intro m m2 h hnd
    simp only [seed_letters, Except.ok.injEq] at h
    rw [← h]
    exact hnd
  | cons letter rest ih =>
    intro m m2 h hnd
    simp only [seed_letters] at h
    split at h
    · cases h
    · rename_i mid hmid
      exact ih mid m2 h (seed_words_nodup hmid hnd)

theorem seed_letters_pred {P : Word × List Word → Prop} {ws : Nat}
    {dict : List Word}
    (hkeep : ∀ (letter : Char), letter ∈ ALPHABET →
      ∀ l0 w, w ∈ dict → P ([letter], l0) → P ([letter], l0 ++ [w]))
    (hnew : ∀ (letter : Char), letter ∈ ALPHABET →
      ∀ w ∈ dict, P ([letter], [w])) :
    ∀ (letters : List Char), (∀ c ∈ letters, c ∈ ALPHABET) →
      ∀ (m m2 : StartsMap), seed_letters ws dict m letters = .ok m2 →
      (∀ e ∈ m, P e) → ∀ e ∈ m2, P e := by
  intro letters
  induction letters with
  | nil =>
    intro _ m m2 h hm
    simp only [seed_letters, Except.ok.injEq] at h
    rw [← h]
    exact hm
  | cons letter rest ih =>
    intro hab m m2 h hm
    simp only [seed_letters] at h
    split at h
    · cases h
    · rename_i mid hmid
      have hlet : letter ∈ ALPHABET := hab letter (List.mem_cons_self _ _)
      exact ih (fun c hc => hab c (List.mem_cons_of_mem _ hc)) mid m2 h
        (seed_words_pred hmid hm (hkeep letter hlet) (hnew letter hlet))

theorem seed_letters_getD_mono {ws : Nat} {dict : List Word} :
    ∀ (letters : List Char) (m m2 : StartsMap),
      seed_letters ws dict m letters = .ok m2 →
      ∀ k x, x ∈ (al_get m k).getD [] → x ∈ (al_get m2 k).getD [] := by
  intro letters
  induction letters with
  | nil =>
    intro m m2 h k x hx
    simp only [seed_letters, Except.ok.injEq] at h
    rw [← h]
    exact hx
  | cons letter rest ih =>
    intro m m2 h k x hx
    simp only [seed_letters] at h
    split at h
    · cases h
    · rename_i mid hmid
      exact ih mid m2 h k x (seed_words_getD_mono hmid k x hx)

theorem seed_letters_target {ws : Nat} {dict : List Word} :
    ∀ (letters : List Char) (m m2 : StartsMap),
      seed_letters ws dict m letters = .ok m2 →
      ∀ w ∈ dict, ∀ letter ∈ letters,
        ([letter] : Word).isPrefixOf w = true →
        w ∈ (al_get m2 [letter]).getD [] := by
  intro letters
  induction letters with
  | nil => intro m m2 _ w _ letter h; cases h
  | cons letter0 rest ih =>
    intro m m2 h w hw letter hlet hpre
    simp only [seed_letters] at h
    split at h
    · cases h
    · rename_i mid hmid
      rcases List.mem_cons.mp hlet with h2 | h2
      · subst h2
        refine seed_letters_getD_mono rest mid m2 h _ w ?_
        rw [seed_words_getD_letter hmid]
        refine List.mem_append.mpr (Or.inr ?_)
        rw [List.mem_filter]
        exact ⟨hw, hpre⟩
      · exact ih mid m2 h w hw letter h2 hpre

/-! ## The growth pass of `generate_starts_that_have_words` -/

theorem grow_words_get_ne {new_start k : Word} (hk : k ≠ new_start) :
    ∀ (ns : StartsMap) (l : List Word),
      al_get (grow_words new_start ns l) k = al_get ns k := by
  intro ns l
  induction l generalizing ns with
  | nil => rfl
  | cons word rest ih =>
    simp only [grow_words]
    rw [ih]
    split
    · rw [al_get_push, if_neg hk]
    · rfl

theorem grow_words_getD (new_start : Word) :
    ∀ (ns : StartsMap) (l : List Word),
      (al_get (grow_words new_start ns l) new_start).getD [] =
        (al_get ns new_start).getD [] ++
          l.filter fun w => new_start.isPrefixOf w := by
  intro ns l
  induction l generalizing ns with
  | nil => simp [grow_words]
  | cons word rest ih =>
    simp only [grow_words]
    rw [ih]
    split
    · rename_i hpre
      rw [al_get_push, if_pos rfl]
      simp only [List.filter_cons, hpre]
      simp [List.append_assoc]
    · rename_i hpre
      simp only [List.filter_cons]
      rw [Bool.not_eq_true] at hpre
      simp [hpre]

theorem grow_words_getD_mono {new_start : Word} (ns : StartsMap)
    (l : List Word) (k x : Word) (hx : x ∈ (al_get ns k).getD []) :
    x ∈ (al_get (grow_words new_start ns l) k).getD [] := by
  by_cases hk : k = new_start
  · subst hk
    rw [grow_words_getD]
    exact List.mem_append.mpr (Or.inl hx)
  · rw [grow_words_get_ne hk]
    exact hx

theorem grow_words_nodup {new_start : Word} :
    ∀ (ns : StartsMap) (l : List Word), (ns.map Prod.fst).Nodup →
      ((grow_words new_start ns l).map Prod.fst).Nodup := by
  intro ns l
  induction l generalizing ns with
  | nil => exact id
  | cons word rest ih =>
    intro hnd
    simp only [grow_words]
    apply ih
    split
    · exact nodup_keys_al_push hnd _ _
    · exact hnd

theorem grow_words_pred {P : Word × List Word → Prop} {new_start : Word} :
    ∀ (ns : StartsMap) (l : List Word), (∀ e ∈ ns, P e) →
      (∀ l0 w, w ∈ l → P (new_start, l0) → P (new_start, l0 ++ [w])) →
      (∀ w ∈ l, P (new_start, [w])) →
      ∀ e ∈ grow_words new_start ns l, P e := by
  intro ns l
  induction l generalizing ns with
  | nil => intro hns _ _; exact hns
  | cons word rest ih =>
    intro hns hkeep hnew
    simp only [grow_words]
    refine ih _ ?_ (fun l0 w hw => hkeep l0 w (List.mem_cons_of_mem _ hw))
      (fun w hw => hnew w (List.mem_cons_of_mem _ hw))
    split
    · exact al_push_pred hns (fun l0 => hkeep l0 word (List.mem_cons_self _ _))
        (hnew word (List.mem_cons_self _ _))
    · exact hns

theorem grow_entries_getD_mono {i : Nat} {letter : Char} :
    ∀ (iter ns : StartsMap) (k x : Word), x ∈ (al_get ns k).getD [] →
      x ∈ (al_get (grow_entries i letter ns iter) k).getD [] := by
  intro iter
  induction iter with
  | nil => intro ns k x hx; exact hx
  | cons e rest ih =>
    obtain ⟨prev, wl⟩ := e
    intro ns k x hx
    simp only [grow_entries]
    split
    · exact ih _ k x (grow_words_getD_mono ns wl k x hx)
    · exact ih _ k x hx

theorem grow_entries_nodup {i : Nat} {letter : Char} :
    ∀ (iter ns : StartsMap), (ns.map Prod.fst).Nodup →
      ((grow_entries i letter ns iter).map Prod.fst).Nodup := by
  intro iter
  induction iter with
  | nil => intro ns h; exact h
  | cons e rest ih =>
    obtain ⟨prev, wl⟩ := e
    intro ns hnd
    simp only [grow_entries]
    split
    · exact ih _ (grow_words_nodup ns wl hnd)
    · exact ih _ hnd

theorem grow_entries_target {i : Nat} {letter : Char} {prev w : Word}
    {wl : List Word} :
    ∀ (iter ns : StartsMap), (prev, wl) ∈ iter → prev.length = i →
      w ∈ wl → (prev ++ [letter]).isPrefixOf w = true →
      w ∈ (al_get (grow_entries i letter ns iter) (prev ++ [letter])).getD [] := by
  intro iter
  induction iter with
  | nil => intro ns h; cases h
  | cons e rest ih =>
    obtain ⟨prev0, wl0⟩ := e
    intro ns hmem hlen hw hpre
    rcases List.mem_cons.mp hmem with h | h
    · injection h with h1 h2
      subst h1
      subst h2
      simp only [grow_entries, if_pos hlen]
      apply grow_entries_getD_mono
      rw [grow_words_getD]
      refine List.mem_append.mpr (Or.inr ?_)
      rw [List.mem_filter]
      exact ⟨hw, hpre⟩
    · simp only [grow_entries]
      split
      · exact ih _ h hlen hw hpre
      · exact ih _ h hlen hw hpre

theorem grow_entries_pred {P : Word × List Word → Prop} {i : Nat}
    {letter : Char} :
    ∀ (iter : StartsMap),
      (∀ e ∈ iter, e.1.length = i →
        (∀ l0 w, w ∈ e.2 → P (e.1 ++ [letter], l0) →
          P (e.1 ++ [letter], l0 ++ [w])) ∧
        (∀ w ∈ e.2, P (e.1 ++ [letter], [w]))) →
      ∀ ns : StartsMap, (∀ e ∈ ns, P e) →
        ∀ e ∈ grow_entries i letter ns iter, P e := by
  intro iter
  induction iter with
  | nil => intro _ ns hns; exact hns
  | cons e0 rest ih =>
    obtain ⟨prev, wl⟩ := e0
    intro hiter ns hns
    simp only [grow_entries]
    split
    · rename_i hlen
      refine ih (fun e he => hiter e (List.mem_cons_of_mem _ he)) _ ?_
      obtain ⟨hkeep, hnew⟩ := hiter (prev, wl) (List.mem_cons_self _ _) hlen
      exact grow_words_pred ns wl hns hkeep hnew
    · exact ih (fun e he => hiter e (List.mem_cons_of_mem _ he)) _ hns

theorem grow_letters_getD_mono {i : Nat} {m : StartsMap} :
    ∀ (letters : List Char) (ns : StartsMap) (k x : Word),
      x ∈ (al_get ns k).getD [] →
      x ∈ (al_get (grow_letters i m ns letters) k).getD [] := by
  intro letters
  induction letters with
  | nil => intro ns k x hx; exact hx
  | cons letter rest ih =>
    intro ns k x hx
    simp only [grow_letters]
    exact ih _ k x (grow_entries_getD_mono m ns k x hx)

theorem grow_letters_nodup {i : Nat} {m : StartsMap} :
    ∀ (letters : List Char) (ns : StartsMap), (ns.map Prod.fst).Nodup →
      ((grow_letters i m ns letters).map Prod.fst).Nodup := by
  intro letters
  induction letters with
  | nil => intro ns h; exact h
  | cons letter rest ih =>
    intro ns hnd
    simp only [grow_letters]
    exact ih _ (grow_entries_nodup m ns hnd)

theorem grow_letters_target {i : Nat} {m : StartsMap} {prev w : Word}
    {wl : List Word} {letter : Char} :
    ∀ (letters : List Char) (ns : StartsMap), letter ∈ letters →
      (prev, wl) ∈ m → prev.length = i → w ∈ wl →
      (prev ++ [letter]).isPrefixOf w = true →
      w ∈ (al_get (grow_letters i m ns letters) (prev ++ [letter])).getD [] := by
  intro letters
  induction letters with
  | nil => intro ns h; cases h
  | cons letter0 rest ih =>
    intro ns hlet hmem hlen hw hpre
    simp only [grow_letters]
    rcases List.mem_cons.mp hlet with h | h
    · subst h
      exact grow_letters_getD_mono rest _ _ w
        (grow_entries_target m ns hmem hlen hw hpre)
    · exact ih _ h hmem hlen hw hpre

theorem grow_letters_pred {P : Word × List Word → Prop} {i : Nat}
    {m : StartsMap} :
    ∀ (letters : List Char),
      (∀ letter ∈ letters, ∀ e ∈ m, e.1.length = i →
        (∀ l0 w, w ∈ e.2 → P (e.1 ++ [letter], l0) →
          P (e.1 ++ [letter], l0 ++ [w])) ∧
        (∀ w ∈ e.2, P (e.1 ++ [letter], [w]))) →
      ∀ ns : StartsMap, (∀ e ∈ ns, P e) →
        ∀ e ∈ grow_letters i m ns letters, P e := by
  intro letters
  induction letters with
  | nil => intro _ ns hns; exact hns
  | cons letter rest ih =>
    intro hlet ns hns
    simp only [grow_letters]
    refine ih (fun l2 hl2 => hlet l2 (List.mem_cons_of_mem _ hl2)) _ ?_
    exact grow_entries_pred m (hlet letter (List.mem_cons_self _ _)) ns hns

/-! ## The removal pass -/

theorem remove_letters_get_ne {k : Word} :
    ∀ (letters : List Char) (m : StartsMap), (∀ c ∈ letters, k ≠ [c]) →
      al_get (remove_letters m letters) k = al_get m k := by
  intro letters
  induction letters with
  | nil => intro m _; rfl
  | cons letter rest ih =>
    intro m h
    simp only [remove_letters]
    rw [ih _ (fun c hc => h c (List.mem_cons_of_mem _ hc))]
    exact al_get_remove_ne (h letter (List.mem_cons_self _ _))

theorem remove_letters_none {k : Word} :
    ∀ (letters : List Char) (m : StartsMap), al_get m k = none →
      al_get (remove_letters m letters) k = none := by
  intro letters
  induction letters with
  | nil => intro m h; exact h
  | cons letter rest ih =>
    intro m h
    simp only [remove_letters]
    exact ih _ (al_get_remove_none h)

theorem remove_letters_nodup :
    ∀ (letters : List Char) (m : StartsMap), (m.map Prod.fst).Nodup →
      ((remove_letters m letters).map Prod.fst).Nodup := by
  intro letters
  induction letters with
  | nil => intro m h; exact h
  | cons letter rest ih =>
    intro m hnd
    simp only [remove_letters]
    exact ih _ (nodup_keys_al_remove hnd _)

theorem remove_letters_removed {c : Char} :
    ∀ (letters : List Char) (m : StartsMap), (m.map Prod.fst).Nodup →
      c ∈ letters → al_get (remove_letters m letters) [c] = none := by
  intro letters
  induction letters with
  | nil => intro m _ h; cases h
  | cons letter rest ih =>
    intro m hnd hc
    simp only [remove_letters]
    rcases List.mem_cons.mp hc with h | h
    · subst h
      exact remove_letters_none rest _ (al_get_remove_self hnd [c])
    · exact ih _ (nodup_keys_al_remove hnd _) h

theorem remove_letters_sub :
    ∀ (letters : List Char) (m : StartsMap) (e : Word × List Word),
      e ∈ remove_letters m letters → e ∈ m := by
  intro letters
  induction letters with
  | nil => intro m e h; exact h
  | cons letter rest ih =>
    intro m e h
    exact mem_al_remove (ih _ _ h)

/-! ## The assembled build invariant -/

theorem seed_inv {dict : List Word} {ws : Nat} {m1 : StartsMap}
    (hok : seed_letters ws dict [] ALPHABET = .ok m1) :
    build_inv dict 1 m1 := by
  refine ⟨seed_letters_nodup ALPHABET [] m1 hok (by simp), ?_, ?_⟩
  · refine seed_letters_pred ?_ ?_ ALPHABET (fun c hc => hc) [] m1 hok
      (by intro e he; cases he)
    · intro letter hlet l0 w hw hP
      refine ⟨hP.1, ?_⟩
      intro x hx
      rcases List.mem_append.mp hx with h | h
      · exact hP.2 x h
      · rw [List.mem_singleton] at h
        rw [h]
        exact hw
    · intro letter hlet w hw
      refine ⟨⟨by simp, by simp, ?_⟩, ?_⟩
      · intro c hc
        rw [List.mem_singleton] at hc
        rw [hc]
        exact hlet
      · intro x hx
        rw [List.mem_singleton] at hx
        rw [hx]
        exact hw
  · intro hab w hw j hj1 hj2 hjw
    have hj : j = 1 := by omega
    subst hj
    cases w with
    | nil => simp at hjw
    | cons c rest =>
      have hc_ab : c ∈ ALPHABET := hab _ hw c (List.mem_cons_self _ _)
      have hpre : ([c] : Word).isPrefixOf (c :: rest) = true := by
        rw [List.isPrefixOf_iff_prefix]
        exact ⟨rest, rfl⟩
      show c :: rest ∈ (al_get m1 (List.take 1 (c :: rest))).getD []
      have htake : List.take 1 (c :: rest) = [c] := rfl
      rw [htake]
      exact seed_letters_target ALPHABET [] m1 hok _ hw c hc_ab hpre

theorem grow_step {dict : List Word} {i : Nat} {m : StartsMap} (hi : 1 ≤ i)
    (hinv : build_inv dict i m) : build_inv dict (i + 1) (grow_layer m i) := by
  obtain ⟨hnd, hent, hmem0⟩ := hinv
  have hns_pred : ∀ e ∈ grow_letters i m [] ALPHABET,
      (e.1.length = i + 1 ∧ ∀ c ∈ e.1, c ∈ ALPHABET) ∧
        ∀ x ∈ e.2, x ∈ dict := by
    refine grow_letters_pred ALPHABET ?_ [] (by intro e he; cases he)
    intro letter hlet e he hlen
    constructor
    · intro l0 w hw hP
      refine ⟨hP.1, ?_⟩
      intro x hx
      rcases List.mem_append.mp hx with h | h
      · exact hP.2 x h
      · rw [List.mem_singleton] at h
        rw [h]
        exact (hent e he).2 w hw
    · intro w hw
      refine ⟨⟨?_, ?_⟩, ?_⟩
      · simp [List.length_append, hlen]
      · intro c hc
        rcases List.mem_append.mp hc with h | h
        · exact (hent e he).1.2.2 c h
        · rw [List.mem_singleton] at h
          rw [h]
          exact hlet
      · intro x hx
        rw [List.mem_singleton] at hx
        rw [hx]
        exact (hent e he).2 w hw
  have hns_nodup : ((grow_letters i m [] ALPHABET).map Prod.fst).Nodup :=
    grow_letters_nodup ALPHABET [] (by simp)
  refine ⟨nodup_keys_al_extend hnd _, ?_, ?_⟩
  · intro e he
    rcases mem_al_extend he with h | h
    · obtain ⟨⟨h1, h2, h3⟩, h4⟩ := hent e h
      exact ⟨⟨h1, by omega, h3⟩, h4⟩
    · obtain ⟨⟨h1, h2⟩, h3⟩ := hns_pred e h
      exact ⟨⟨by omega, by omega, h2⟩, h3⟩
  · intro hab w hw j hj1 hj2 hjw
    have hmem := hmem0 hab
    by_cases hj : j ≤ i
    · have hm := hmem w hw j hj1 hj hjw
      have hns_none : al_get (grow_letters i m [] ALPHABET) (w.take j) =
          none := by
        cases hg : al_get (grow_letters i m [] ALPHABET) (w.take j) with
        | none => rfl
        | some l =>
          have h2 := (hns_pred _ (al_get_mem hg)).1.1
          rw [List.length_take, Nat.min_eq_left hjw] at h2
          omega
      show w ∈ (al_get (al_extend m (grow_letters i m [] ALPHABET))
        (w.take j)).getD []
      rw [al_get_extend_none hns_none]
      exact hm
    · have hj : j = i + 1 := by omega
      subst hj
      have hwi : i ≤ w.length := by omega
      have hm := hmem w hw i (by omega) (le_refl i) hwi
      cases hg : al_get m (w.take i) with
      | none => rw [hg] at hm; cases hm
      | some lst =>
        have hentry : (w.take i, lst) ∈ m := al_get_mem hg
        rw [hg] at hm
        simp only [Option.getD_some] at hm
        obtain ⟨ch, hch⟩ : ∃ ch, w[i]? = some ch :=
          ⟨_, List.getElem?_eq_getElem (by omega : i < w.length)⟩
        have hch_ab : ch ∈ ALPHABET := hab w hw ch (List.getElem?_mem hch)
        have htake : w.take i ++ [ch] = w.take (i + 1) := by
          rw [List.take_succ, hch]
          rfl
        have hpre : (w.take i ++ [ch]).isPrefixOf w = true := by
          rw [htake, List.isPrefixOf_iff_prefix]
          exact List.take_prefix _ _
        have htarget := grow_letters_target ALPHABET ([] : StartsMap) hch_ab
          hentry (by rw [List.length_take, Nat.min_eq_left hwi]) hm hpre
        rw [htake] at htarget
        cases hg2 : al_get (grow_letters i m [] ALPHABET) (w.take (i + 1)) with
        | none => rw [hg2] at htarget; cases htarget
        | some l2 =>
          show w ∈ (al_get (al_extend m (grow_letters i m [] ALPHABET))
            (w.take (i + 1))).getD []
          rw [al_get_extend_some hns_nodup hg2]
          rw [hg2] at htarget
          exact htarget

theorem grow_fold_inv {dict : List Word} :
    ∀ (n lo : Nat) (m : StartsMap), 1 ≤ lo → build_inv dict lo m →
      build_inv dict (lo + n) ((List.range' lo n).foldl grow_layer m) := by
  intro n
  induction n with
  | zero => intro lo m _ h; simpa using h
  | succ n ih =>
    intro lo m hlo h
    rw [List.range'_succ, List.foldl_cons]
    have h2 := ih (lo + 1) (grow_layer m lo) (by omega) (grow_step hlo h)
    have harith : lo + (n + 1) = (lo + 1) + n := by omega
    rw [harith]
    exact h2

/-! ## Characterization of `generate_starts_that_have_words` -/

theorem seed_letters_sizes {ws : Nat} {dict : List Word} {letters : List Char}
    {m m2 : StartsMap} (hne : letters ≠ [])
    (hok : seed_letters ws dict m letters = .ok m2) :
    ∀ w ∈ dict, w.length = ws := by
  cases letters with
  | nil => exact absurd rfl hne
  | cons letter rest =>
    simp only [seed_letters] at hok
    split at hok
    · cases hok
    · rename_i mid hmid
      exact seed_words_sizes_of_ok hmid

theorem seed_letters_error_exists {ws : Nat} {dict : List Word}
    (letters : List Char) (hne : letters ≠ []) (m : StartsMap)
    (h : ∃ w ∈ dict, w.length ≠ ws) :
    ∃ e, seed_letters ws dict m letters = .error e := by
  cases letters with
  | nil => exact absurd rfl hne
  | cons letter rest => exact seed_letters_error_of rest m h

theorem generate_eq_error_empty_iff (dict : List Word) :
    generate_starts_that_have_words dict = .error .Empty ↔ dict = [] := by
  constructor
  · intro h
    by_contra hne
    cases hd : dict.head? with
    | none => exact hne (List.head?_eq_none_iff.mp hd)
    | some first =>
      simp only [generate_starts_that_have_words, hd] at h
      cases hseed : seed_letters first.length dict [] ALPHABET with
      | error e =>
        rw [hseed] at h
        injection h with h2
        obtain ⟨w, _, he, _⟩ := seed_letters_error_shape ALPHABET [] hseed
        rw [he] at h2
        cases h2
      | ok m1 =>
        rw [hseed] at h
        cases h
  · intro h
    subst h
    rfl

theorem generate_icws_shape {dict : List Word} {w : Word} {n f : Nat}
    (h : generate_starts_that_have_words dict =
      .error (.InCorrectWordSize w n f)) :
    w ∈ dict ∧ n = (dict.headD []).length ∧ f = w.length ∧ w.length ≠ n := by
  cases hd : dict.head? with
  | none =>
    simp only [generate_starts_that_have_words, hd] at h
    injection h with h2
    cases h2
  | some first =>
    have hfirst : dict.headD [] = first := by
      rw [List.headD_eq_head?_getD, hd]
      rfl
    simp only [generate_starts_that_have_words, hd] at h
    cases hseed : seed_letters first.length dict [] ALPHABET with
    | error e =>
      rw [hseed] at h
      injection h with h2
      obtain ⟨w2, hw2, he, hs⟩ := seed_letters_error_shape ALPHABET [] hseed
      rw [he] at h2
      injection h2 with h3 h4 h5
      subst h3
      subst h4
      subst h5
      exact ⟨hw2, by rw [hfirst], rfl, hs⟩
    | ok m1 =>
      rw [hseed] at h
      cases h

theorem generate_icws_exists {dict : List Word} (hne : dict ≠ [])
    (h : ∃ w ∈ dict, w.length ≠ (dict.headD []).length) :
    ∃ w n f, generate_starts_that_have_words dict =
      .error (.InCorrectWordSize w n f) := by
  cases hdc : dict with
  | nil => exact absurd hdc hne
  | cons first rest =>
    subst hdc
    have hd : (first :: rest).head? = some first := rfl
    have hfirst : (first :: rest).headD [] = first := rfl
    rw [hfirst] at h
    obtain ⟨e, he⟩ := seed_letters_error_exists ALPHABET (by
      intro hh
      have := congrArg List.length hh
      simp [ALPHABET] at this) [] h
    obtain ⟨w2, hw2, he2, hs⟩ := seed_letters_error_shape ALPHABET [] he
    refine ⟨w2, first.length, w2.length, ?_⟩
    simp only [generate_starts_that_have_words, hd]
    rw [he, he2]

theorem generate_ok_laws {dict : List Word} {pm : StartsMap}
    (hok : generate_starts_that_have_words dict = .ok pm) :
    dict ≠ [] ∧
    (∀ w ∈ dict, w.length = (dict.headD []).length) ∧
    (∀ p l, al_get pm p = some l →
      (∀ x ∈ l, x ∈ dict) ∧ p.length ≠ 1 ∧
        p.length ≤ (dict.headD []).length) ∧
    ((∀ w ∈ dict, ∀ c ∈ w, c ∈ ALPHABET) →
      ∀ w ∈ dict, ∀ k, 2 ≤ k → k ≤ (dict.headD []).length →
        w ∈ (al_get pm (w.take k)).getD [] ∧
          contains_key pm (w.take k) = true) := by
  cases hd : dict.head? with
  | none =>
    simp only [generate_starts_that_have_words, hd] at hok
    cases hok
  | some first =>
    have hfirst : dict.headD [] = first := by
      rw [List.headD_eq_head?_getD, hd]
      rfl
    have hne : dict ≠ [] := by
      intro hh
      rw [hh] at hd
      cases hd
    simp only [generate_starts_that_have_words, hd] at hok
    cases hseed : seed_letters first.length dict [] ALPHABET with
    | error e => rw [hseed] at hok; cases hok
    | ok m1 =>
      rw [hseed] at hok
      injection hok with hok
      have hsizes : ∀ w ∈ dict, w.length = first.length :=
        seed_letters_sizes (by
          intro hh
          have := congrArg List.length hh
          simp [ALPHABET] at this) hseed
      have hinv : build_inv dict (1 + (first.length - 1))
          ((List.range' 1 (first.length - 1)).foldl grow_layer m1) :=
        grow_fold_inv (first.length - 1) 1 m1 (le_refl 1) (seed_inv hseed)
      obtain ⟨hnd, hent, hmem⟩ := hinv
      have hnd2 := remove_letters_nodup ALPHABET _ hnd
      refine ⟨hne, by rw [hfirst]; exact hsizes, ?_, ?_⟩
      · intro p l hget
        have hmem2 : (p, l) ∈ remove_letters
            ((List.range' 1 (first.length - 1)).foldl grow_layer m1)
            ALPHABET := by
          rw [← hok] at hget
          exact al_get_mem hget
        have hm1mem := remove_letters_sub ALPHABET _ _ hmem2
        obtain ⟨⟨hlen1, hlen2, hchars⟩, hvals⟩ := hent _ hm1mem
        have hlen_ne : p.length ≠ 1 := by
          intro h1
          cases hp : p with
          | nil => rw [hp] at h1; cases h1
          | cons c rest2 =>
            rw [hp] at h1
            simp only [List.length_cons] at h1
            have hrest2 : rest2 = [] := List.eq_nil_of_length_eq_zero (by omega)
            subst hrest2
            have hc : c ∈ ALPHABET := by
              refine hchars c ?_
              rw [hp]
              exact List.mem_cons_self _ _
            have hnone := remove_letters_removed ALPHABET _ hnd hc
            rw [← hok, hp] at hget
            rw [hget] at hnone
            cases hnone
        have hlen1b : 1 ≤ p.length := hlen1
        have hlen2b : p.length ≤ 1 + (first.length - 1) := hlen2
        refine ⟨hvals, hlen_ne, ?_⟩
        rw [hfirst]
        omega
      · intro hab w hw k hk2 hkN
        rw [hfirst] at hkN
        have hkw : k ≤ w.length := by rw [hsizes w hw]; exact hkN
        have hmem3 := hmem hab w hw k (by omega) (by omega) hkw
        have htake_len : (w.take k).length = k := by
          rw [List.length_take]
          omega
        have hpres : al_get pm (w.take k) =
            al_get ((List.range' 1 (first.length - 1)).foldl grow_layer m1)
              (w.take k) := by
          rw [← hok]
          refine remove_letters_get_ne ALPHABET _ ?_
          intro c _ he
          have := congrArg List.length he
          rw [htake_len] at this
          simp at this
          omega
        refine ⟨?_, ?_⟩
        · rw [hpres]
          exact hmem3
        · rw [contains_key, hpres]
          cases hg : al_get ((List.range' 1 (first.length - 1)).foldl
              grow_layer m1) (w.take k) with
          | none => rw [hg] at hmem3; cases hmem3
          | some l2 => rfl

/-! ## Dead prefixes recorded into `bad_starts` stay dead -/

theorem fit_test_records_dead (pm : StartsMap) (lri ri : Nat)
    (P cols : List Word) (w v : Word) (c : Nat)
    (hcw : cols.length = w.length) (hcv : cols.length = v.length)
    (hF : fit_test pm lri ri P cols w = (false, c)) (_hclri : c ≠ lri)
    (hpre : (w.take (c + 1)).isPrefixOf v = true) :
    fit_test pm lri ri P cols v = (false, c) := by
  have hvw : ∀ j, j ≤ c → c < w.length → v[j]? = w[j]? := by
    intro j hj hcwlen
    have hlen : (w.take (c + 1)).length = c + 1 := by
      rw [List.length_take]
      omega
    have h2 := @prefix_getElem? _ _ hpre j (by omega)
    rw [List.getElem?_take_of_lt (by omega)] at h2
    exact h2
  have hpairs : ∀ j, j ≤ c → c < cols.length → c < w.length →
      (cols.zip v)[j]? = (cols.zip w)[j]? := by
    intro j hj hcl hwl
    have hj1 : j < cols.length := by omega
    have hj2 : j < w.length := by omega
    have hj3 : j < v.length := by omega
    have h1 : (cols.zip v)[j]? = some (cols[j], w[j]) :=
      List.getElem?_zip_eq_some.mpr
        ⟨List.getElem?_eq_getElem hj1,
          (hvw j hj hwl).trans (List.getElem?_eq_getElem hj2)⟩
    have h2 : (cols.zip w)[j]? = some (cols[j], w[j]) :=
      List.getElem?_zip_eq_some.mpr
        ⟨List.getElem?_eq_getElem hj1, List.getElem?_eq_getElem hj2⟩
    rw [h1, h2]
  by_cases hreq : ri = lri
  · simp only [fit_test, if_pos hreq] at hF ⊢
    have hsome := last_word_fits_eq_false hF
    rw [last_fits_from_eq_some_iff] at hsome
    obtain ⟨j, p, hpj, hcj, hjfail, hall⟩ := hsome
    have hj : c = j := by omega
    subst hj
    have hclen : c < cols.length ∧ c < w.length := by
      obtain ⟨h3, _⟩ := List.getElem?_eq_some.mp hpj
      rw [List.length_zip] at h3
      omega
    have hv : last_fits_from pm P (P.headD []) 0 (cols.zip v) = some c := by
      rw [last_fits_from_eq_some_iff]
      refine ⟨c, p, ?_, by omega, hjfail, ?_⟩
      · rw [hpairs c (le_refl c) hclen.1 hclen.2]
        exact hpj
      · intro j' p' hlt hj'
        refine hall j' p' hlt ?_
        rw [← hpairs j' (by omega) hclen.1 hclen.2]
        exact hj'
    simp only [last_word_fits, hv]
  · simp only [fit_test, if_neg hreq] at hF ⊢
    rcases word_fits_eq_false hF with ⟨hl, hsome⟩ | ⟨hnl, _⟩
    · rw [fits_from_eq_some_iff] at hsome
      obtain ⟨j, p, hpj, hcj, hjfail, hall⟩ := hsome
      have hj : c = j := by omega
      subst hj
      have hclen : c < cols.length ∧ c < w.length := by
        obtain ⟨h3, _⟩ := List.getElem?_eq_some.mp hpj
        rw [List.length_zip] at h3
        omega
      have hv : fits_from pm 0 (cols.zip v) = some c := by
        rw [fits_from_eq_some_iff]
        refine ⟨c, p, ?_, by omega, hjfail, ?_⟩
        · rw [hpairs c (le_refl c) hclen.1 hclen.2]
          exact hpj
        · intro q hq
          obtain ⟨j', hj'⟩ := List.mem_iff_getElem?.mp hq
          have hj'lt : j' < c := by
            obtain ⟨h3, _⟩ := List.getElem?_eq_some.mp hj'
            rw [List.length_take, List.length_zip] at h3
            omega
          rw [List.getElem?_take_of_lt hj'lt,
            hpairs j' (by omega) hclen.1 hclen.2] at hj'
          refine hall q ?_
          have h4 : (List.take c (cols.zip w))[j']? = some q := by
            rw [List.getElem?_take_of_lt hj'lt]
            exact hj'
          exact List.getElem?_mem h4
      simp only [word_fits, if_pos hcv, hv]
    · exact absurd hcw hnl

/-! ## Fuel stability: the recursion depth is bounded by the word size -/

theorem fit_test_top (pm : StartsMap) (N : Nat) (hN : 1 ≤ N)
    (hkeylen : ∀ p l, al_get pm p = some l → p.length ≤ N)
    (P : List Word) (hP : P.length = N) (hPlen : ∀ w ∈ P, w.length = N)
    (w : Word) (hw : w.length = N) :
    fit_test pm (N - 1) N P (construct_potential_transposed_puzzle P) w =
      (false, 0) := by
  have hne : ¬(N = N - 1) := by omega
  have htake : P.take N = P := by rw [← hP, List.take_length]
  have hfc := @frame_cols _ _ hP hPlen hN N hN (le_refl N)
  rw [htake] at hfc
  obtain ⟨hcols, hclen⟩ := hfc
  simp only [fit_test, if_neg hne]
  have hlen0 : (construct_potential_transposed_puzzle P).length = w.length := by
    rw [hclen, hw]
  simp only [word_fits, if_pos hlen0]
  have h0w : 0 < w.length := by omega
  have h0c : (construct_potential_transposed_puzzle P)[0]? =
      some ((column P 0).take N) := hcols 0 (by omega)
  have hcol0 : ((column P 0).take N).length = N := by
    rw [List.length_take, column_length_eq hP hPlen (by omega)]
    omega
  have hkey : contains_key pm ((column P 0).take N ++ [w[0]]) = false := by
    by_contra hcon
    rw [Bool.not_eq_false, contains_key] at hcon
    obtain ⟨l, hl⟩ := Option.isSome_iff_exists.mp hcon
    have h2 := hkeylen _ l hl
    rw [List.length_append, hcol0] at h2
    simp at h2
  have hsome :
      fits_from pm 0 ((construct_potential_transposed_puzzle P).zip w) =
        some 0 := by
    rw [fits_from_eq_some_iff]
    refine ⟨0, ((column P 0).take N, w[0]), ?_, rfl, hkey, by simp⟩
    exact List.getElem?_zip_eq_some.mpr ⟨h0c, List.getElem?_eq_getElem h0w⟩
  rw [hsome]

theorem fs_loop_dead (pm : StartsMap) (N : Nat) (hN : 1 ≤ N)
    (hkeylen : ∀ p l, al_get pm p = some l → p.length ≤ N)
    (P : List Word) (hP : P.length = N) (hPlen : ∀ w ∈ P, w.length = N)
    (recurse : List Word → List Word × List (List Word)) :
    ∀ (l : List Word), (∀ w ∈ l, w.length = N) →
      ∀ (bs : List Word) (out : List (List Word)),
        ∃ bs', fs_loop pm (N - 1) N (construct_potential_transposed_puzzle P)
          recurse l (P, bs, out) = (P, bs', out) := by
  intro l
  induction l with
  | nil => intro _ bs out; exact ⟨bs, rfl⟩
  | cons w rest ih =>
    intro hl bs out
    rw [fs_loop_cons]
    by_cases h1 : skip_word w bs P = true
    · rw [if_pos h1]
      exact ih (fun x hx => hl x (List.mem_cons_of_mem _ hx)) bs out
    · rw [if_neg h1]
      have hft := fit_test_top pm N hN hkeylen P hP hPlen w
        (hl w (List.mem_cons_self _ _))
      rw [hft]
      by_cases h2 : (0 : Nat) = N - 1
      · rw [if_neg (by simp), if_pos h2]
        exact ih (fun x hx => hl x (List.mem_cons_of_mem _ hx)) bs out
      · rw [if_neg (by simp), if_neg h2]
        exact ih (fun x hx => hl x (List.mem_cons_of_mem _ hx)) _ out

theorem dead_frame (dict : List Word) (pm : StartsMap) (N : Nat) (hN : 1 ≤ N)
    (hlen : ∀ w ∈ dict, w.length = N)
    (hkeylen : ∀ p l, al_get pm p = some l → p.length ≤ N)
    (P : List Word) (hP : P.length = N) (hPlen : ∀ w ∈ P, w.length = N) :
    ∀ fuel, find_solutions fuel dict pm (N - 1) P N = (P, []) := by
  intro fuel
  cases fuel with
  | zero => rfl
  | succ f =>
    rw [find_solutions_succ]
    obtain ⟨bs', hbs⟩ := fs_loop_dead pm N hN hkeylen P hP hPlen
      (fun p => find_solutions f dict pm (N - 1) p (N + 1)) dict hlen
      (List.replicate (N - 1) []) []
    rw [hbs]

theorem fs_loop_congr (pm : StartsMap) (lri ri : Nat) (cols : List Word)
    (r1 r2 : List Word → List Word × List (List Word)) (P : List Word)
    (h1 : ∀ p, (r1 p).1 = p) :
    ∀ (l : List Word), (∀ w ∈ l, r1 (P ++ [w]) = r2 (P ++ [w])) →
      ∀ (bs : List Word) (out : List (List Word)),
        fs_loop pm lri ri cols r1 l (P, bs, out) =
          fs_loop pm lri ri cols r2 l (P, bs, out) := by
  intro l
  induction l with
  | nil => intro _ bs out; rfl
  | cons w rest ih =>
    intro hag bs out
    rw [fs_loop_cons, fs_loop_cons]
    by_cases hsk : skip_word w bs P = true
    · rw [if_pos hsk, if_pos hsk]
      exact ih (fun x hx => hag x (List.mem_cons_of_mem _ hx)) bs out
    · rw [if_neg hsk, if_neg hsk]
      by_cases hfit : (fit_test pm lri ri P cols w).1 = true
      · rw [if_pos hfit, if_pos hfit]
        have hw := hag w (List.mem_cons_self _ _)
        rw [← hw]
        have hdrop : (r1 (P ++ [w])).1.dropLast = P := by
          rw [h1, List.dropLast_concat]
        rw [hdrop]
        exact ih (fun x hx => hag x (List.mem_cons_of_mem _ hx)) _ _
      · rw [if_neg hfit, if_neg hfit]
        by_cases hc : (fit_test pm lri ri P cols w).2 = lri
        · rw [if_pos hc, if_pos hc]
          exact ih (fun x hx => hag x (List.mem_cons_of_mem _ hx)) bs out
        · rw [if_neg hc, if_neg hc]
          exact ih (fun x hx => hag x (List.mem_cons_of_mem _ hx)) _ out

theorem find_solutions_fuel_stable (dict : List Word) (pm : StartsMap)
    (N : Nat) (hN : 1 ≤ N) (hlen : ∀ w ∈ dict, w.length = N)
    (hkeylen : ∀ p l, al_get pm p = some l → p.length ≤ N) :
    ∀ (d ri : Nat) (P : List Word) (fuel1 fuel2 : Nat), ri ≤ N →
      N - ri ≤ d → P.length = ri → (∀ w ∈ P, w.length = N) →
      N - ri < fuel1 → N - ri < fuel2 →
      find_solutions fuel1 dict pm (N - 1) P ri =
        find_solutions fuel2 dict pm (N - 1) P ri := by
  intro d
  induction d with
  | zero =>
    intro ri P fuel1 fuel2 hriN hd hP hPlen _ _
    have hri : ri = N := by omega
    rw [hri] at hP ⊢
    rw [dead_frame dict pm N hN hlen hkeylen P hP hPlen fuel1,
      dead_frame dict pm N hN hlen hkeylen P hP hPlen fuel2]
  | succ d ih =>
    intro ri P fuel1 fuel2 hriN hd hP hPlen hf1 hf2
    by_cases hri : ri = N
    · rw [hri] at hP ⊢
      rw [dead_frame dict pm N hN hlen hkeylen P hP hPlen fuel1,
        dead_frame dict pm N hN hlen hkeylen P hP hPlen fuel2]
    · have hlt : ri < N := lt_of_le_of_ne hriN hri
      obtain ⟨f1, rfl⟩ : ∃ f, fuel1 = f + 1 := ⟨fuel1 - 1, by omega⟩
      obtain ⟨f2, rfl⟩ : ∃ f, fuel2 = f + 1 := ⟨fuel2 - 1, by omega⟩
      rw [find_solutions_succ, find_solutions_succ]
      have hcongr := fs_loop_congr pm (N - 1) ri
        (construct_potential_transposed_puzzle P)
        (fun p => find_solutions f1 dict pm (N - 1) p (ri + 1))
        (fun p => find_solutions f2 dict pm (N - 1) p (ri + 1)) P
        (fun p => find_solutions_fst f1 dict pm (N - 1) p (ri + 1))
        dict
        (fun w hw => ih (ri + 1) (P ++ [w]) f1 f2 (by omega) (by omega)
          (by rw [List.length_append, hP, List.length_singleton])
          (by
            intro x hx
            rcases List.mem_append.mp hx with h | h
            · exact hPlen x h
            · rw [List.mem_singleton.mp h]; exact hlen w hw)
          (by omega) (by omega))
        (List.replicate (N - 1) []) []
      rw [hcongr]

theorem run_fuel_stable (dict : List Word) (pm : StartsMap) (N : Nat)
    (hN : 1 ≤ N) (hlen : ∀ w ∈ dict, w.length = N)
    (hkeylen : ∀ p l, al_get pm p = some l → p.length ≤ N)
    (word : Word) (hw : word.length = N) :
    ∀ fuel, N ≤ fuel → run fuel dict pm N word = run N dict pm N word := by
  intro fuel hfuel
  simp only [run]
  rw [find_solutions_fuel_stable dict pm N hN hlen hkeylen (N - 1) 1 [word]
    fuel N (by omega) (by omega) (by simp)
    (by intro x hx; rw [List.mem_singleton.mp hx]; exact hw)
    (by omega) (by omega)]

/-! ## From a completed frame to the emitted stream, and orientation choice -/

theorem square_emitted {dict : List Word} {pm : StartsMap} {N : Nat}
    {S : List Word} (hN : 3 ≤ N)
    (hlen : ∀ w ∈ dict, w.length = N)
    (hkey : ∀ w ∈ dict, ∀ k, 2 ≤ k → k ≤ N → contains_key pm (w.take k) = true)
    (hmemlaw : ∀ w ∈ dict, ∀ k, 2 ≤ k → k ≤ N →
      w ∈ (al_get pm (w.take k)).getD [])
    (hS : S.length = N) (hrows : ∀ w ∈ S, w ∈ dict)
    (hcolsd : ∀ c, c < N → column S c ∈ dict)
    (hnd : S.Nodup)
    (hnc : ∀ c, c < N → column S c ∉ S.take (N - 1))
    (hded : would_be_transposed_row (S.headD []) (column S 0) = false) :
    ∀ fuel, N - 1 ≤ fuel → S ∈ emitted_solutions fuel dict pm N := by
  intro fuel hfuel
  have hSne : S ≠ [] := by
    intro h
    rw [h] at hS
    simp at hS
    omega
  have hhead : S.headD [] ∈ dict := hrows _ (headD_mem hSne [])
  have htake1 : S.take 1 = [S.headD []] := by
    cases S with
    | nil => exact absurd rfl hSne
    | cons a t => rfl
  have hmem := find_solutions_complete_frame hN hlen hkey hmemlaw hS hrows
    hcolsd hnd hnc hded fuel 1 (by omega) (by omega) (by omega)
  rw [htake1] at hmem
  simp only [emitted_solutions, List.mem_flatMap]
  exact ⟨S.headD [], hhead, hmem⟩

theorem emitted_one_orientation {dict : List Word} {pm : StartsMap} {N : Nat}
    {S : List Word} (hN : 3 ≤ N)
    (hlen : ∀ w ∈ dict, w.length = N)
    (hkey : ∀ w ∈ dict, ∀ k, 2 ≤ k → k ≤ N → contains_key pm (w.take k) = true)
    (hmemlaw : ∀ w ∈ dict, ∀ k, 2 ≤ k → k ≤ N →
      w ∈ (al_get pm (w.take k)).getD [])
    (hS : S.length = N) (hrows : ∀ w ∈ S, w ∈ dict)
    (hcolsd : ∀ c, c < N → column S c ∈ dict)
    (hnd : S.Nodup) (hndT : (transposeSq S).Nodup)
    (hnc : ∀ c, c < N → column S c ∉ S.take (N - 1))
    (hncT : ∀ c, c < N →
      column (transposeSq S) c ∉ (transposeSq S).take (N - 1)) :
    ∀ fuel, N - 1 ≤ fuel →
      S ∈ emitted_solutions fuel dict pm N ∨
        transposeSq S ∈ emitted_solutions fuel dict pm N := by
  intro fuel hfuel
  have hSne : S ≠ [] := by
    intro h
    rw [h] at hS
    simp at hS
    omega
  have hrowlen : ∀ w ∈ S, w.length = N := fun w hw => hlen w (hrows w hw)
  by_cases hded : would_be_transposed_row (S.headD []) (column S 0) = false
  · left
    exact square_emitted hN hlen hkey hmemlaw hS hrows hcolsd hnd hnc hded
      fuel hfuel
  · right
    have htrue : would_be_transposed_row (S.headD []) (column S 0) = true := by
      rcases Bool.eq_false_or_eq_true
          (would_be_transposed_row (S.headD []) (column S 0)) with h | h
      · exact h
      · exact absurd h hded
    have hlt : str_cmp (column S 0) (S.headD []) = .lt :=
      (would_be_transposed_row_iff _ _).mp htrue
    have hT_len : (transposeSq S).length = N := by
      rw [transposeSq_length, hS]
    have hT_rows : ∀ w ∈ transposeSq S, w ∈ dict := by
      intro w hw
      obtain ⟨c, hc, rfl⟩ := transposeSq_mem.mp hw
      exact hcolsd c (hS ▸ hc)
    have hgd0 : S.getD 0 [] = S.headD [] := by
      cases S with
      | nil => exact absurd rfl hSne
      | cons a t => rfl
    have hT_cols : ∀ c, c < N → column (transposeSq S) c ∈ dict := by
      intro c hc
      rw [column_transposeSq hS hrowlen hc]
      have hcS : c < S.length := by omega
      rw [getD_eq_getElem hcS]
      exact hrows _ (List.getElem_mem hcS)
    have hT_ded : would_be_transposed_row ((transposeSq S).headD [])
        (column (transposeSq S) 0) = false := by
      rw [transposeSq_headD hSne, column_transposeSq hS hrowlen (by omega),
        hgd0]
      rw [would_be_transposed_row]
      simp only [decide_eq_false_iff_not]
      exact str_cmp_lt_asymm hlt
    exact square_emitted hN hlen hkey hmemlaw hT_len hT_rows hT_cols hndT
      hncT hT_ded fuel hfuel

/-! ## Last helpers: pointwise flatMap congruence and the emitted stream -/

theorem flatMap_congr_mem {α β : Type} {l : List α} {f g : α → List β}
    (h : ∀ x ∈ l, f x = g x) : l.flatMap f = l.flatMap g := by
  induction l with
  | nil => rfl
  | cons a t ih =>
    simp only [List.flatMap_cons]
    rw [h a (List.mem_cons_self _ _),
      ih fun x hx => h x (List.mem_cons_of_mem _ hx)]

theorem emitted_fuel_stable (dict : List Word) (pm : StartsMap) (N : Nat)
    (hN : 1 ≤ N) (hlen : ∀ w ∈ dict, w.length = N)
    (hkeylen : ∀ p l, al_get pm p = some l → p.length ≤ N) :
    ∀ fuel, N ≤ fuel →
      emitted_solutions fuel dict pm N = emitted_solutions N dict pm N := by
  intro fuel hf
  simp only [emitted_solutions]
  exact flatMap_congr_mem fun w hw =>
    run_fuel_stable dict pm N hN hlen hkeylen w (hlen w hw) fuel hf

theorem emitted_solutions_ok {dict : List Word} {pm : StartsMap}
    {N fuel : Nat} (hN : 1 ≤ N) (hlen : ∀ w ∈ dict, w.length = N)
    (hsub : ∀ p l, al_get pm p = some l → ∀ w ∈ l, w ∈ dict) :
    ∀ sol ∈ emitted_solutions fuel dict pm N, emitted_ok dict N sol := by
  intro sol hsol
  simp only [emitted_solutions, List.mem_flatMap] at hsol
  obtain ⟨w, hw, hrun⟩ := hsol
  simp only [run] at hrun
  exact find_solutions_sound fuel dict pm N hN hlen hsub [w] 1 rfl (le_refl 1)
    (by intro x hx; rw [List.mem_singleton.mp hx]; exact hw) sol hrun

/-! ## The claims -/

set_option maxRecDepth 100000

/-- Claim C1, counterexample to the original property: `bit/ice/ten` is a
word square over the dictionary `{bit, ice, ten}` of identically-sized words
of length 3 — its three rows and three columns are all dictionary words — and
it equals its own transpose, yet for every fuel neither it nor its transpose
is emitted when every dictionary word is run as a root: the final-row check
rejects any full column that is already a row of the puzzle, so diagonally
symmetric squares are never emitted. -/
theorem claim_c1_counterexample :
    generate_starts_that_have_words dict3 = .ok pm3 ∧
    (∀ w ∈ dict3, w.length = 3) ∧
    square3.length = 3 ∧ (∀ w ∈ square3, w ∈ dict3) ∧
    (∀ c, c < 3 → column square3 c ∈ dict3) ∧
    transposeSq square3 = square3 ∧
    ∀ fuel, square3 ∉ emitted_solutions fuel dict3 pm3 3 ∧
      transposeSq square3 ∉ emitted_solutions fuel dict3 pm3 3 := by
  refine ⟨rfl, by decide, by decide, by decide, by decide, by decide, ?_⟩
  have hok : generate_starts_that_have_words dict3 = .ok pm3 := rfl
  have hlaws := generate_ok_laws hok
  have hhead : (dict3.headD []).length = 3 := by decide
  have hkeylen : ∀ p l, al_get pm3 p = some l → p.length ≤ 3 := by
    intro p l hpl
    have h2 := (hlaws.2.2.1 p l hpl).2.2
    omega
  intro fuel
  by_cases hf : 3 ≤ fuel
  · rw [emitted_fuel_stable dict3 pm3 3 (by omega) (by decide) hkeylen fuel hf]
    exact ⟨by decide, by decide⟩
  · rcases fuel with _ | _ | _ | n
    · exact ⟨by decide, by decide⟩
    · exact ⟨by decide, by decide⟩
    · exact ⟨by decide, by decide⟩
    · exact (hf (by omega)).elim

/-- Claim C1 (amended): for `N ≥ 3`, a lowercase dictionary of length-`N`
words and a word square over it whose two orientations each consist of
pairwise-distinct rows with no column word occurring among that orientation's
first `N − 1` rows, at least one of the square and its transpose is emitted
once the fuel covers the recursion depth. -/
theorem claim_c1_amended {dict : List Word} {pm : StartsMap} {N : Nat}
    {S : List Word} (hN : 3 ≤ N)
    (hok : generate_starts_that_have_words dict = .ok pm)
    (hABC : ∀ w ∈ dict, ∀ c ∈ w, c ∈ ALPHABET)
    (hlen : ∀ w ∈ dict, w.length = N)
    (hS : S.length = N) (hrows : ∀ w ∈ S, w ∈ dict)
    (hcolsd : ∀ c, c < N → column S c ∈ dict)
    (hnd : S.Nodup) (hndT : (transposeSq S).Nodup)
    (hnc : ∀ c, c < N → column S c ∉ S.take (N - 1))
    (hncT : ∀ c, c < N →
      column (transposeSq S) c ∉ (transposeSq S).take (N - 1)) :
    ∀ fuel, N - 1 ≤ fuel →
      S ∈ emitted_solutions fuel dict pm N ∨
        transposeSq S ∈ emitted_solutions fuel dict pm N := by
  have hlaws := generate_ok_laws hok
  have hhead : (dict.headD []).length = N := hlen _ (headD_mem hlaws.1 [])
  have hkey : ∀ w ∈ dict, ∀ k, 2 ≤ k → k ≤ N →
      contains_key pm (w.take k) = true := by
    intro w hw k hk1 hk2
    exact (hlaws.2.2.2 hABC w hw k hk1 (by omega)).2
  have hmemlaw : ∀ w ∈ dict, ∀ k, 2 ≤ k → k ≤ N →
      w ∈ (al_get pm (w.take k)).getD [] := by
    intro w hw k hk1 hk2
    exact (hlaws.2.2.2 hABC w hw k hk1 (by omega)).1
  exact emitted_one_orientation hN hlen hkey hmemlaw hS hrows hcolsd hnd hndT
    hnc hncT

/-- Witness for the amended claim C1: one orientation of the asymmetric
square `abc/def/ghi` over a concrete six-word dictionary is emitted at
fuel 3. -/
theorem claim_c1_witness :
    square6 ∈ emitted_solutions 3 dict6 pm6 3 ∨
      transposeSq square6 ∈ emitted_solutions 3 dict6 pm6 3 :=
  @claim_c1_amended dict6 pm6 3 square6 (by decide) rfl (by decide)
    (by decide) (by decide) (by decide) (by decide) (by decide) (by decide)
    (by decide) (by decide) 3 (by decide)

/-- Claim C2 (confirmed): for every emitted square, its transpose either
equals the square or is not also emitted — here the stronger fact that the
transpose of an emitted square is never emitted, because an emitted square
has its first row strictly lexicographically below its first column and the
transpose reverses that strict inequality. -/
theorem claim_c2 {dict : List Word} {pm : StartsMap} {N fuel : Nat}
    {S : List Word} (hN : 1 ≤ N)
    (hok : generate_starts_that_have_words dict = .ok pm)
    (hlen : ∀ w ∈ dict, w.length = N)
    (hS : S ∈ emitted_solutions fuel dict pm N) :
    transposeSq S = S ∨ transposeSq S ∉ emitted_solutions fuel dict pm N := by
  have hsub : ∀ p l, al_get pm p = some l → ∀ w ∈ l, w ∈ dict :=
    fun p l hpl => ((generate_ok_laws hok).2.2.1 p l hpl).1
  right
  intro hT
  obtain ⟨hSlen, hSrows, _, hSlt⟩ := emitted_solutions_ok hN hlen hsub S hS
  obtain ⟨_, _, _, hTlt⟩ := emitted_solutions_ok hN hlen hsub _ hT
  have hSne : S ≠ [] := by
    intro h
    rw [h] at hSlen
    simp at hSlen
    omega
  have hrowlen : ∀ w ∈ S, w.length = N := fun w hw => hlen w (hSrows w hw)
  rw [transposeSq_headD hSne,
    column_transposeSq hSlen hrowlen (by omega)] at hTlt
  have hgd0 : S.getD 0 [] = S.headD [] := by
    cases S with
    | nil => exact absurd rfl hSne
    | cons a t => rfl
  rw [hgd0] at hTlt
  exact str_cmp_lt_asymm hSlt hTlt

/-- Witness for claim C2 at the emitted square `abc/def/ghi` over the
six-word dictionary. -/
theorem claim_c2_witness :
    transposeSq square6 = square6 ∨
      transposeSq square6 ∉ emitted_solutions 3 dict6 pm6 3 :=
  @claim_c2 dict6 pm6 3 3 square6 (by decide) rfl (by decide) (by decide)

/-- Claim C3 (confirmed): every emitted square has exactly `N` rows, and all
its rows and all its column words are present in the dictionary. -/
theorem claim_c3 {dict : List Word} {pm : StartsMap} {N fuel : Nat}
    (hN : 1 ≤ N)
    (hok : generate_starts_that_have_words dict = .ok pm)
    (hlen : ∀ w ∈ dict, w.length = N) :
    ∀ S ∈ emitted_solutions fuel dict pm N,
      S.length = N ∧ (∀ w ∈ S, w ∈ dict) ∧
        ∀ c, c < N → column S c ∈ dict := by
  intro S hS
  have hsub : ∀ p l, al_get pm p = some l → ∀ w ∈ l, w ∈ dict :=
    fun p l hpl => ((generate_ok_laws hok).2.2.1 p l hpl).1
  obtain ⟨h1, h2, h3, _⟩ := emitted_solutions_ok hN hlen hsub S hS
  exact ⟨h1, h2, h3⟩

/-- Witness for claim C3 at the emitted square `abc/def/ghi`. -/
theorem claim_c3_witness :
    square6.length = 3 ∧ (∀ w ∈ square6, w ∈ dict6) ∧
      ∀ c, c < 3 → column square6 c ∈ dict6 :=
  @claim_c3 dict6 pm6 3 3 (by decide) rfl (by decide) square6 (by decide)

/-- Claim C4 (confirmed): after a successful build of the prefix index over a
lowercase dictionary of length-`N` words, every prefix `w.take k` of a
dictionary word `w` with `2 ≤ k ≤ N` is a key whose value list contains `w`,
and no key of the index has length 1. -/
theorem claim_c4 {dict : List Word} {pm : StartsMap} {N : Nat}
    (hok : generate_starts_that_have_words dict = .ok pm)
    (hABC : ∀ w ∈ dict, ∀ c ∈ w, c ∈ ALPHABET)
    (hlen : ∀ w ∈ dict, w.length = N) :
    (∀ w ∈ dict, ∀ k, 2 ≤ k → k ≤ N →
      contains_key pm (w.take k) = true ∧
        w ∈ (al_get pm (w.take k)).getD []) ∧
    ∀ p l, al_get pm p = some l → p.length ≠ 1 := by
  have hlaws := generate_ok_laws hok
  have hhead : (dict.headD []).length = N := hlen _ (headD_mem hlaws.1 [])
  refine ⟨?_, fun p l hpl => (hlaws.2.2.1 p l hpl).2.1⟩
  intro w hw k hk1 hk2
  obtain ⟨hmem, hc⟩ := hlaws.2.2.2 hABC w hw k hk1 (by omega)
  exact ⟨hc, hmem⟩

/-- Witness for claim C4 at the six-word dictionary and its built index. -/
theorem claim_c4_witness :
    (∀ w ∈ dict6, ∀ k, 2 ≤ k → k ≤ 3 →
      contains_key pm6 (w.take k) = true ∧
        w ∈ (al_get pm6 (w.take k)).getD []) ∧
    ∀ p l, al_get pm6 p = some l → p.length ≠ 1 :=
  @claim_c4 dict6 pm6 3 rfl (by decide) (by decide)

/-- Claim C5 (confirmed): a prefix recorded into `bad_starts` is dead in its
frame.  When a word `w` fails the frame's fit test at a column index `c`
other than the last row index — exactly the case in which `find_solutions`
records `w.take (c+1)` into `bad_starts[c]` — every same-length word `v`
that starts with that recorded prefix fails the same frame's fit test at the
same column index `c`, so the skip-word filter never skips a word that could
have extended the puzzle. -/
theorem claim_c5 (pm : StartsMap) (lri ri : Nat) (P cols : List Word)
    (w v : Word) (c : Nat)
    (hcw : cols.length = w.length) (hcv : cols.length = v.length)
    (hF : fit_test pm lri ri P cols w = (false, c)) (hclri : c ≠ lri)
    (hpre : (w.take (c + 1)).isPrefixOf v = true) :
    fit_test pm lri ri P cols v = (false, c) :=
  fit_test_records_dead pm lri ri P cols w v c hcw hcv hF hclri hpre

/-- Witness for claim C5: in the frame with puzzle `[abc]` over the six-word
dictionary, `ghi` fails the fit test at column 0, and the recorded prefix
`g` dooms any word carrying it at the same column. -/
theorem claim_c5_witness :
    fit_test pm6 2 1 [toW "abc"]
      (construct_potential_transposed_puzzle [toW "abc"]) (toW "ghi") =
      (false, 0) :=
  claim_c5 pm6 2 1 [toW "abc"]
    (construct_potential_transposed_puzzle [toW "abc"]) (toW "ghi")
    (toW "ghi") 0 (by decide) (by decide) (by decide) (by decide) (by decide)

/-- Claim C6 (confirmed): the prefix-index build returns `Empty` exactly for
the empty dictionary; it returns `InCorrectWordSize` — reporting the
offending word, the expected length and the found length — exactly when some
word's length differs from the first word's; a successful build excludes
both errors. -/
theorem claim_c6 (dict : List Word) :
    (generate_starts_that_have_words dict = .error .Empty ↔ dict = []) ∧
    ((∃ w n f, generate_starts_that_have_words dict =
        .error (.InCorrectWordSize w n f)) ↔
      ∃ w ∈ dict, w.length ≠ (dict.headD []).length) ∧
    ∀ w n f, generate_starts_that_have_words dict =
        .error (.InCorrectWordSize w n f) →
      w ∈ dict ∧ n = (dict.headD []).length ∧ f = w.length ∧ f ≠ n := by
  refine ⟨generate_eq_error_empty_iff dict, ⟨?_, ?_⟩, ?_⟩
  · rintro ⟨w, n, f, h⟩
    obtain ⟨hw, hn, _, hne⟩ := generate_icws_shape h
    exact ⟨w, hw, by rw [← hn]; exact hne⟩
  · rintro ⟨w, hw, hne⟩
    exact generate_icws_exists (List.ne_nil_of_mem hw) ⟨w, hw, hne⟩
  · intro w n f h
    obtain ⟨hw, hn, hf, hne⟩ := generate_icws_shape h
    refine ⟨hw, hn, hf, ?_⟩
    rw [hf]
    exact hne

/-- Claim C7 (confirmed): the search is terminating — its recursion depth is
bounded by the word size.  In the fueled model of `find_solutions`, any two
fuels exceeding the remaining depth `N − row_index` give the same result, so
from a frame with `row_index = 1` fuel `N` already computes the final value;
each frame iterates only the finite dictionary. -/
theorem claim_c7 {dict : List Word} {pm : StartsMap} {N : Nat}
    (hN : 1 ≤ N)
    (hok : generate_starts_that_have_words dict = .ok pm)
    (hlen : ∀ w ∈ dict, w.length = N)
    {P : List Word} {ri : Nat} (hP : P.length = ri)
    (hPlen : ∀ w ∈ P, w.length = N) (hri : ri ≤ N) :
    ∀ fuel1 fuel2, N - ri < fuel1 → N - ri < fuel2 →
      find_solutions fuel1 dict pm (N - 1) P ri =
        find_solutions fuel2 dict pm (N - 1) P ri := by
  intro fuel1 fuel2 h1 h2
  have hlaws := generate_ok_laws hok
  have hhead : (dict.headD []).length = N := hlen _ (headD_mem hlaws.1 [])
  have hkeylen : ∀ p l, al_get pm p = some l → p.length ≤ N := by
    intro p l hpl
    have h3 := (hlaws.2.2.1 p l hpl).2.2
    omega
  exact find_solutions_fuel_stable dict pm N hN hlen hkeylen (N - ri) ri P
    fuel1 fuel2 hri (le_refl _) hP hPlen h1 h2

/-- Witness for claim C7: over the six-word dictionary, fuel 3 and fuel 7
produce identical search results from the root frame `[abc]`. -/
theorem claim_c7_witness :
    find_solutions 3 dict6 pm6 (3 - 1) [toW "abc"] 1 =
      find_solutions 7 dict6 pm6 (3 - 1) [toW "abc"] 1 :=
  @claim_c7 dict6 pm6 3 (by decide) rfl (by decide) [toW "abc"] 1 (by decide)
    (by decide) (by decide) 3 7 (by decide) (by decide)

/-- Claim C8 (confirmed): `would_be_transposed_row row col` returns true
exactly when `col` is lexicographically less than `row` (char-by-char, the
shorter strict prefix counting as smaller). -/
theorem claim_c8 (row col : Word) :
    would_be_transposed_row row col = true ↔ List.Lex (· < ·) col row := by
  rw [would_be_transposed_row_iff, str_cmp_lt_iff_lex]

/-- Claim C9, counterexample to the original property: the supplied
thread-count argument `"0"` does not denote a positive integer, yet
`GeneratorConfig.build` accepts it and returns a configuration with zero
worker threads instead of an argument-parsing error. -/
theorem claim_c9_counterexample :
    GeneratorConfig.build ["exec", "dict", "out", "0"] =
      .ok ⟨"dict", 0, some "out"⟩ := rfl

/-- Claim C9 (amended): the worker thread count defaults to 1 exactly when
no fourth argument is supplied, and a supplied fourth argument is parsed as
an unsigned 64-bit integer — zero included — with the parse error returned
exactly when that parse fails. -/
theorem claim_c9_amended (a0 a1 a2 a3 : String) :
    (∃ cfg, GeneratorConfig.build [a0, a1] = .ok cfg ∧
      cfg.num_threads = 1) ∧
    (∃ cfg, GeneratorConfig.build [a0, a1, a2] = .ok cfg ∧
      cfg.num_threads = 1) ∧
    (∀ n, parse_usize a3 = some n →
      ∃ cfg, GeneratorConfig.build [a0, a1, a2, a3] = .ok cfg ∧
        cfg.num_threads = n) ∧
    (parse_usize a3 = none →
      GeneratorConfig.build [a0, a1, a2, a3] =
        .error "Could not parse the number of the number of threads argument") := by
  have hform : GeneratorConfig.build [a0, a1, a2, a3] =
      (match parse_usize a3 with
        | some num => .ok ⟨a1, num,
            if ([a0, a1, a2, a3] : List String).length > 2 && a2 ≠ "" then
              some a2 else none⟩
        | none => .error
            "Could not parse the number of the number of threads argument") :=
    rfl
  refine ⟨⟨_, rfl, rfl⟩, ⟨_, rfl, rfl⟩, ?_, ?_⟩
  · intro n hn
    rw [hform, hn]
    exact ⟨_, rfl, rfl⟩
  · intro hn
    rw [hform, hn]

/-- Claim C10 (confirmed): `find_solutions` restores its puzzle argument —
the puzzle component of the returned state equals the puzzle at entry, for
every fuel, dictionary, prefix index, last row index, puzzle and row
index. -/
theorem claim_c10 (fuel : Nat) (dict : List Word) (pm : StartsMap)
    (lri : Nat) (puzzle : List Word) (ri : Nat) :
    (find_solutions fuel dict pm lri puzzle ri).1 = puzzle :=
  find_solutions_fst fuel dict pm lri puzzle ri

end Squardle
